import Mathlib

/-!
Verification of the dependency-closure extractor and rewriter in
`scripts/inference/convert_composer_to_hf.py`.

The development shallowly embeds the core functions of that script:

* `pyStartsWith`, `pySplitChar`, `pySplit` model Python's `str.startswith`
  and `str.split` (both operate on character sequences);
* `classifyModule` is the import-classification performed by the
  `elif`-chain of `process_file` (lines 299-322);
* `Stmt` / `Module` model the fragment of the Python abstract syntax tree
  that `process_file` inspects (`ImportFrom`, `Import`, `ClassDef`,
  single-target `Assign`, and opaque statements, with nesting through
  `ClassDef`/`FunctionDef` bodies);
* `walkStmts` models `ast.walk` (breadth-first), `deleteStmts` models the
  `DeleteSpecificNodes` transformer (lines 269-278), `rewriteStmt` models
  the in-place rewrite of internal imports, and `processModule` models the
  tree-level behaviour of `process_file` (lines 292-335);
* `basename`, `outName`, `newFilePath` model the output-naming rule of
  `process_file` (lines 327-333);
* `runLoop` / `WStep` model the worklist drain of
  `edit_files_for_hf_compatibility` (lines 338-353).

Machine integers do not occur in the modelled code; file contents and the
module resolver (`importlib`-backed `find_module_file`) are parameters.
-/

namespace ConvertHF

/-! ## Python string primitives

Python `str` values are modelled as Lean `String`s; the operations the
script uses (`startswith`, `split`) are defined on the character list
`String.data`, which is exactly Python's character-sequence semantics. -/

/-- Python's `s.startswith(p)`: `p` is a character-wise prefix of `s`. -/
def pyStartsWith (s p : String) : Bool := p.data.isPrefixOf s.data

/-- Python's `str.split(sep)` on character lists: splits at every
occurrence of `sep`, keeping empty segments (`"a//b" → ["a","","b"]`,
`"" → [""]`).  The result is never empty. -/
def pySplitChar (sep : Char) : List Char → List (List Char)
  | [] => [[]]
  | c :: cs =>
    match pySplitChar sep cs with
    | [] => [[]]
    | h :: t => if c = sep then [] :: h :: t else (c :: h) :: t

/-- Python's `s.split(sep)` for a one-character separator. -/
def pySplit (sep : Char) (s : String) : List String :=
  (pySplitChar sep s.data).map String.mk

/-- Joining character segments with a separator: the left inverse used to
state theorems about paths built from segments. -/
def joinChar (sep : Char) : List (List Char) → List Char
  | [] => []
  | [l] => l
  | l :: ls => l ++ sep :: joinChar sep (ls)

/-- Join path/module segments with a separator character. -/
def joinSegs (sep : Char) (segs : List String) : String :=
  String.mk (joinChar sep (segs.map String.data))

theorem pySplitChar_ne_nil (sep : Char) (l : List Char) :
    pySplitChar sep l ≠ [] := by
  cases l with
  | nil => simp [pySplitChar]
  | cons c cs =>
    simp only [pySplitChar]
    cases pySplitChar sep cs with
    | nil => simp
    | cons h t =>
      by_cases hc : c = sep <;> simp [hc]

theorem pySplitChar_joinChar (sep : Char) (L : List (List Char))
    (hne : L ≠ []) (hsep : ∀ l ∈ L, sep ∉ l) :
    pySplitChar sep (joinChar sep L) = L := by
  induction L with
  | nil => exact absurd rfl hne
  | cons l ls ih =>
    cases ls with
    | nil =>
      simp only [joinChar]
      have hl : sep ∉ l := hsep l (by simp)
      clear ih hne hsep
      induction l with
      | nil => simp [pySplitChar]
      | cons c cs ihc =>
        have hc : c ≠ sep := by
          intro h; exact hl (by simp [h])
        have hcs : sep ∉ cs := fun h => hl (by simp [h])
        simp only [pySplitChar, ihc hcs, hc, if_false]
    | cons l₂ ls₂ =>
      have hrest : pySplitChar sep (joinChar sep (l₂ :: ls₂)) = l₂ :: ls₂ :=
        ih (by simp) (fun x hx => hsep x (by simp [hx] ))
      have hl : sep ∉ l := hsep l (by simp)
      show pySplitChar sep (l ++ sep :: joinChar sep (l₂ :: ls₂)) = l :: l₂ :: ls₂
      clear ih hne hsep
      induction l with
      | nil =>
        simp [List.nil_append, pySplitChar, hrest]
      | cons c cs ihc =>
        have hc : c ≠ sep := by
          intro h; exact hl (by simp [h])
        have hcs : sep ∉ cs := fun h => hl (by simp [h])
        have hstep := ihc hcs
        simp only [List.cons_append, List.append_eq, pySplitChar] at hstep ⊢
        rw [hstep]
        simp [hc]

/-! ## Import classification (process_file, lines 299-322)

The `elif`-chain of `process_file` classifies every `ast.ImportFrom` node
by `node.module`:
- `node.module.startswith('llmfoundry')` — rewritten to a relative import
  (internal);
- `node.module.startswith('composer') or node.module.startswith('omegaconf')`
  — marked for deletion (excluded);
- otherwise left alone (unrelated). -/

inductive ImportKind where
  | internal
  | excluded
  | unrelated
deriving DecidableEq, Repr

/-- The classification performed by the `elif`-chain of `process_file` on
an `ImportFrom` node whose `module` attribute is the string `m`. -/
def classifyModule (m : String) : ImportKind :=
  if pyStartsWith m "llmfoundry" then .internal
  else if pyStartsWith m "composer" || pyStartsWith m "omegaconf" then .excluded
  else .unrelated

/-- Matching on whole dotted segments, as the spec describes it
(`"pkg.sub"` matches prefix `"pkg"`, `"pkgx"` does not).
Modelled from the spec: this is the spec's matching rule, stated for
comparison with the code's `pyStartsWith`-based rule. -/
def specSegMatch (p m : String) : Bool :=
  m = p || pyStartsWith m (p ++ ".")

theorem specSegMatch_pyStartsWith {p m : String}
    (h : specSegMatch p m = true) : pyStartsWith m p = true := by
  rcases Bool.or_eq_true_iff.mp h with h | h
  · have hm : m = p := of_decide_eq_true h
    subst hm
    simp [pyStartsWith, List.isPrefixOf_iff_prefix]
  · simp only [pyStartsWith, List.isPrefixOf_iff_prefix] at h ⊢
    refine List.IsPrefix.trans ?_ h
    refine ⟨('.' : Char) :: [], ?_⟩
    simp [String.data_append]

/-! ## The syntax-tree fragment inspected by process_file

`process_file` walks a full Python tree (`ast.walk`) but inspects only
`ImportFrom`, `Import`, `ClassDef` and single-target `Assign` nodes, and
recursion into compound statements happens through their statement
bodies.  `Stmt` models exactly these forms: other statements are opaque
(`exprStmt`), and nesting is modelled through `classDef`/`funcDef`
bodies.  An `ImportFrom` carries its relative-import `level` and its
`module` attribute, which is `none` for imports such as
`from . import x`. -/

inductive AssignTarget where
  | name (s : String)
  | other (s : String)
deriving Repr, DecidableEq

inductive Stmt where
  | importFrom (level : Nat) (module : Option String) (names : List String)
  | imp (names : List String)
  | classDef (name : String) (body : List Stmt)
  | funcDef (name : String) (body : List Stmt)
  | assign (targets : List AssignTarget) (value : String)
  | exprStmt (s : String)
deriving Repr

/-- A parsed source file: `ast.Module` is a list of statements. -/
structure PyModule where
  body : List Stmt
deriving Repr

mutual
def beqStmt : Stmt → Stmt → Bool
  | .importFrom l₁ m₁ n₁, .importFrom l₂ m₂ n₂ => l₁ == l₂ && m₁ == m₂ && n₁ == n₂
  | .imp n₁, .imp n₂ => n₁ == n₂
  | .classDef a₁ b₁, .classDef a₂ b₂ => a₁ == a₂ && beqStmts b₁ b₂
  | .funcDef a₁ b₁, .funcDef a₂ b₂ => a₁ == a₂ && beqStmts b₁ b₂
  | .assign t₁ v₁, .assign t₂ v₂ => t₁ == t₂ && v₁ == v₂
  | .exprStmt s₁, .exprStmt s₂ => s₁ == s₂
  | _, _ => false

def beqStmts : List Stmt → List Stmt → Bool
  | [], [] => true
  | a :: as, b :: bs => beqStmt a b && beqStmts as bs
  | _, _ => false
end

theorem beqStmt_iff : ∀ (s t : Stmt), (beqStmt s t = true ↔ s = t) := by
  apply beqStmt.induct
    (fun s t => (beqStmt s t = true ↔ s = t))
    (fun l₁ l₂ => (beqStmts l₁ l₂ = true ↔ l₁ = l₂))
  case case1 => intro l₁ m₁ n₁ l₂ m₂ n₂; simp [beqStmt, and_assoc]
  case case2 => intro n₁ n₂; simp [beqStmt]
  case case3 => intro a₁ b₁ a₂ b₂ ih; simp [beqStmt, ih]
  case case4 => intro a₁ b₁ a₂ b₂ ih; simp [beqStmt, ih]
  case case5 => intro t₁ v₁ t₂ v₂; simp [beqStmt]
  case case6 => intro s₁ s₂; simp [beqStmt]
  case case7 =>
    intro t x h₁ h₂ h₃ h₄ h₅ h₆
    cases t <;> cases x <;>
      first
      | exact (h₁ _ _ _ _ _ _ rfl rfl).elim
      | exact (h₂ _ _ rfl rfl).elim
      | exact (h₃ _ _ _ _ rfl rfl).elim
      | exact (h₄ _ _ _ _ rfl rfl).elim
      | exact (h₅ _ _ _ _ rfl rfl).elim
      | exact (h₆ _ _ rfl rfl).elim
      | simp [beqStmt]
  case case8 => simp [beqStmts]
  case case9 => intro a as b bs ih₁ ih₂; simp [beqStmts, ih₁, ih₂]
  case case10 =>
    intro t x h₁ h₂
    cases t <;> cases x <;>
      first
      | exact (h₁ rfl rfl).elim
      | exact (h₂ _ _ _ _ rfl rfl).elim
      | simp [beqStmts]

instance : BEq Stmt := ⟨beqStmt⟩

instance : LawfulBEq Stmt where
  eq_of_beq h := (beqStmt_iff _ _).mp h
  rfl := (beqStmt_iff _ _).mpr rfl

instance : DecidableEq Stmt := fun s t =>
  decidable_of_iff (beqStmt s t = true) (beqStmt_iff s t)

instance : DecidableEq PyModule := fun m₁ m₂ =>
  decidable_of_iff (m₁.body = m₂.body)
    ⟨fun h => by cases m₁; cases m₂; simpa using h, fun h => by rw [h]⟩

/-! ## ast.walk (breadth-first traversal) -/

/-- The child statements `ast.walk` and `ast.NodeTransformer` descend
into: the bodies of compound statements. -/
def childrenOf : Stmt → List Stmt
  | .classDef _ b => b
  | .funcDef _ b => b
  | _ => []

mutual
def stmtSize : Stmt → Nat
  | .classDef _ b => 1 + stmtsSize b
  | .funcDef _ b => 1 + stmtsSize b
  | _ => 1

def stmtsSize : List Stmt → Nat
  | [] => 0
  | s :: r => stmtSize s + stmtsSize r
end

theorem stmtsSize_append (a b : List Stmt) :
    stmtsSize (a ++ b) = stmtsSize a + stmtsSize b := by
  induction a with
  | nil => simp [stmtsSize]
  | cons s r ih => simp [stmtsSize, ih]; omega

theorem stmtsSize_children_lt (s : Stmt) : stmtsSize (childrenOf s) < stmtSize s := by
  cases s <;> simp [childrenOf, stmtSize, stmtsSize]

/-- Breadth-first queue traversal with explicit fuel.  One fuel unit is
consumed per dequeued node; since every node of the initial queue (nested
ones included) is enqueued exactly once, `stmtsSize q` bounds the total
number of dequeues, so the fuel never runs out when starting from it. -/
def walkAux : Nat → List Stmt → List Stmt
  | 0, _ => []
  | _ + 1, [] => []
  | f + 1, s :: rest => s :: walkAux f (rest ++ childrenOf s)

/-- `ast.walk(tree)`: yields every node of the queue and, breadth-first,
all of their descendants. -/
def walkStmts (q : List Stmt) : List Stmt :=
  walkAux (stmtsSize q) q

/-- Occurrence of a statement anywhere inside another statement
(reflexively, or inside a nested body). -/
inductive Occ : Stmt → Stmt → Prop where
  | refl (s : Stmt) : Occ s s
  | child {s u t : Stmt} : u ∈ childrenOf t → Occ s u → Occ s t

theorem stmtSize_one_le (s : Stmt) : 1 ≤ stmtSize s := by
  cases s <;> simp [stmtSize]

theorem walkAux_mem : ∀ (f : Nat) (L : List Stmt), stmtsSize L ≤ f →
    ∀ x, (x ∈ walkAux f L ↔ ∃ t ∈ L, Occ x t) := by
  intro f
  induction f with
  | zero =>
    intro L hL x
    cases L with
    | nil => simp [walkAux]
    | cons s r =>
      exfalso
      have := stmtSize_one_le s
      simp [stmtsSize] at hL
      omega
  | succ f ih =>
    intro L hL x
    cases L with
    | nil => simp [walkAux]
    | cons s rest =>
      have hle : stmtsSize (rest ++ childrenOf s) ≤ f := by
        rw [stmtsSize_append]
        have h1 := stmtsSize_children_lt s
        simp only [stmtsSize] at hL
        omega
      have hstep : walkAux (f + 1) (s :: rest) =
          s :: walkAux f (rest ++ childrenOf s) := rfl
      rw [hstep]
      simp only [List.mem_cons, ih _ hle, List.mem_append]
      constructor
      · rintro (rfl | ⟨t, ht | ht, hocc⟩)
        · exact ⟨x, by simp, Occ.refl x⟩
        · exact ⟨t, by simp [ht], hocc⟩
        · exact ⟨s, by simp, Occ.child ht hocc⟩
      · rintro ⟨t, ht, hocc⟩
        rcases ht with rfl | ht
        · cases hocc with
          | refl => exact Or.inl rfl
          | child hu ho => exact Or.inr ⟨_, Or.inr hu, ho⟩
        · exact Or.inr ⟨t, Or.inl ht, hocc⟩

theorem walkStmts_mem (L : List Stmt) (x : Stmt) :
    x ∈ walkStmts L ↔ ∃ t ∈ L, Occ x t :=
  walkAux_mem (stmtsSize L) L le_rfl x

/-! ## The classification / rewrite / prune pass of process_file

The `for node in ast.walk(tree)` loop of `process_file` (lines 299-322)
classifies each node by the `elif`-chain:
1. `ImportFrom` with `module.startswith('llmfoundry')`: the module string
   is rewritten in place to `convert_to_relative_import(module)` and
   `find_module_file(module)` is appended to `new_files_to_process`;
2. `ImportFrom` with `module.startswith('composer')` or
   `module.startswith('omegaconf')`: node appended to `nodes_to_remove`;
3. `ClassDef` whose name `startswith('Composer')`: appended to
   `nodes_to_remove`;
4. `Assign` with a single `Name` target `'__all__'`: appended to
   `nodes_to_remove`.
Afterwards `DeleteSpecificNodes(nodes_to_remove).visit(tree)` removes the
collected nodes.

Because `node.module` is mutated in place, the objects held in
`nodes_to_remove` at deletion time carry the already-rewritten bodies;
the pure model therefore rewrites first and collects the removal set
from the rewritten tree, which matches the observable behaviour (the
rewrite never changes whether any node satisfies a removal condition:
rewritten modules start with `'.'`).

`node.module.startswith(...)` raises `AttributeError` when `module` is
`None` (e.g. `from . import x`); the exception propagates out of
`process_file`, so no output is produced.  `processModule` models this
with `Except.error`. -/

/-- Python's negative index `parts[-1]` on a list of strings (`""` on an
empty list, where Python would raise `IndexError`). -/
def lastSeg : List String → String
  | [] => ""
  | [s] => s
  | _ :: r => lastSeg r

/-- Python's negative index `parts[-2]` (`""` where Python would raise
`IndexError`; the theorems below only use lists of length ≥ 2). -/
def sndLastSeg : List String → String
  | [] => ""
  | [_] => ""
  | [a, _] => a
  | _ :: r => sndLastSeg r

/-- `convert_to_relative_import` (lines 281-283):
`'.' + module_name.split('.')[-1]`. -/
def convert_to_relative_import (module_name : String) : String :=
  let parts := pySplit '.' module_name
  "." ++ lastSeg parts

/-- The removal conditions of the `elif`-chain, as a predicate on a node.
The `composer`/`omegaconf` branch is only reached when the `llmfoundry`
branch did not fire. -/
def shouldRemove : Stmt → Bool
  | .importFrom _ (some m) _ =>
    !pyStartsWith m "llmfoundry" &&
      (pyStartsWith m "composer" || pyStartsWith m "omegaconf")
  | .classDef n _ => pyStartsWith n "Composer"
  | .assign [.name t] _ => t == "__all__"
  | _ => false

mutual
def rewriteStmt : Stmt → Stmt
  | .importFrom lvl (some m) ns =>
    if pyStartsWith m "llmfoundry" then
      .importFrom lvl (some (convert_to_relative_import m)) ns
    else .importFrom lvl (some m) ns
  | .classDef n b => .classDef n (rewriteStmts b)
  | .funcDef n b => .funcDef n (rewriteStmts b)
  | s => s

def rewriteStmts : List Stmt → List Stmt
  | [] => []
  | s :: r => rewriteStmt s :: rewriteStmts r
end

/-- Does any `ImportFrom` in the tree have `module = None`?  On such a
tree the walk loop raises `AttributeError`. -/
def hasNoneModule (body : List Stmt) : Bool :=
  (walkStmts body).any fun s =>
    match s with
    | .importFrom _ none _ => true
    | _ => false

/-- The `new_files_to_process` list: for every internal import
encountered by the walk (in walk order), the resolved module file.
`resolve` abstracts `find_module_file` (lines 286-289), which maps a
dotted module name to its source-file path via `importlib`. -/
def collectDeps (resolve : String → String) (body : List Stmt) : List String :=
  (walkStmts body).filterMap fun s =>
    match s with
    | .importFrom _ (some m) _ =>
      if pyStartsWith m "llmfoundry" then some (resolve m) else none
    | _ => none

/-- The `nodes_to_remove` list collected by the walk. -/
def nodesToRemove (body : List Stmt) : List Stmt :=
  (walkStmts body).filter shouldRemove

mutual
/-- `DeleteSpecificNodes.visit` (lines 269-278): a node contained in
`nodes_to_remove` is replaced by `None` (removed from its parent's
statement list); any other node is traversed recursively. -/
def deleteStmt (R : List Stmt) : Stmt → Stmt
  | .classDef n b => .classDef n (deleteStmts R b)
  | .funcDef n b => .funcDef n (deleteStmts R b)
  | s => s

def deleteStmts (R : List Stmt) : List Stmt → List Stmt
  | [] => []
  | s :: r =>
    if R.contains s then deleteStmts R r else deleteStmt R s :: deleteStmts R r
end

/-- The tree-level behaviour of `process_file` (lines 292-335): either
the `AttributeError` raised on an `ImportFrom` without a module string,
or the transformed tree paired with `new_files_to_process`. -/
def processModule (resolve : String → String) (m : PyModule) :
    Except String (PyModule × List String) :=
  if hasNoneModule m.body then
    .error "AttributeError: NoneType object has no attribute startswith"
  else
    let rewritten := rewriteStmts m.body
    .ok (⟨deleteStmts (nodesToRemove rewritten) rewritten⟩,
      collectDeps resolve m.body)

/-! ## Characterizing the delete pass

`nodes_to_remove` holds exactly the walk-reachable nodes satisfying
`shouldRemove`, and Python's identity-based membership test in
`DeleteSpecificNodes.visit` coincides with the structural test here:
every structural copy of a collected node satisfies the same removal
condition and is therefore collected as well.  Consequently the delete
pass equals the recursive filter `pruneStmts`. -/

mutual
def pruneStmt : Stmt → Stmt
  | .classDef n b => .classDef n (pruneStmts b)
  | .funcDef n b => .funcDef n (pruneStmts b)
  | s => s

def pruneStmts : List Stmt → List Stmt
  | [] => []
  | s :: r =>
    if shouldRemove s then pruneStmts r else pruneStmt s :: pruneStmts r
end

/-- An `ImportFrom` node whose module matches one of the excluded
prefixes `composer` / `omegaconf`. -/
def isExcludedImport : Stmt → Bool
  | .importFrom _ (some m) _ =>
    pyStartsWith m "composer" || pyStartsWith m "omegaconf"
  | _ => false

/-! ## Output naming (process_file, lines 327-333) -/

/-- `os.path.basename` for slash-separated paths: the part after the
last `'/'` (the whole string when there is none). -/
def basename (p : String) : String := lastSeg (pySplit '/' p)

/-- Lines 327-330: the emitted file name.  `__init__.py` is renamed to
the parent directory's name (`file_path.split('/')[-2]`) with the `.py`
extension; any other file keeps its own basename.  (Python raises
`IndexError` when `'/'` does not occur in the path of an `__init__.py`;
the theorems below only consider paths with a parent directory.) -/
def outName (file_path : String) : String :=
  let new_filename := basename file_path
  if new_filename = "__init__.py" then
    let parts := pySplit '/' file_path
    sndLastSeg parts ++ ".py"
  else new_filename

/-- Line 331: `os.path.join(folder_path, new_filename)` for a folder
without trailing slash and a relative file name. -/
def newFilePath (folder_path file_path : String) : String :=
  folder_path ++ "/" ++ outName file_path

/-! ## The worklist drain (edit_files_for_hf_compatibility, lines 338-353)

The Python loop keeps `files_to_process` (a list used as a stack:
`append` pushes at the end, `pop()` pops the end) and the set
`files_processed_and_queued`.  The model keeps the stack with its top at
the head, so Python's `pop()` is `head` here, and records the histories
the theorems talk about: `emitted` (paths for which `process_file` ran
and wrote an output file), `popped` (every path ever popped) and
`enqueued` (every path ever placed on the stack, seeds included).

`valid` abstracts `os.path.isfile(p) and p.endswith('.py')`; `deps p`
abstracts the `new_files_to_process` list returned by
`process_file(p, folder)`, a pure function of the (fixed) file at `p`. -/

structure WLState where
  pending : List String
  seen : List String
  emitted : List String
  popped : List String
  enqueued : List String
deriving Repr, DecidableEq

structure PushState where
  pending : List String
  seen : List String
  enqueued : List String
deriving Repr, DecidableEq

/-- The `for file in to_add` loop (lines 350-353): push each dependency
not yet seen, and record it as seen. -/
def pushDeps : List String → PushState → PushState
  | [], st => st
  | d :: ds, st =>
    if d ∈ st.seen then pushDeps ds st
    else pushDeps ds ⟨d :: st.pending, d :: st.seen, st.enqueued ++ [d]⟩

/-- One iteration of the `while` loop after `to_process` was popped:
skip silently unless `valid`, otherwise process the file (emitting its
output) and push its unseen dependencies. -/
def popResult (valid : String → Bool) (deps : String → List String)
    (p : String) (rest : List String) (st : WLState) : WLState :=
  if valid p then
    let ps := pushDeps (deps p) ⟨rest, st.seen, st.enqueued⟩
    ⟨ps.pending, ps.seen, st.emitted ++ [p], st.popped ++ [p], ps.enqueued⟩
  else
    ⟨rest, st.seen, st.emitted, st.popped ++ [p], st.enqueued⟩

/-- The `while len(files_to_process) > 0` drain, with explicit fuel
(`none` means the fuel ran out before the stack drained; termination is
proved separately). -/
def runLoop (valid : String → Bool) (deps : String → List String) :
    Nat → WLState → Option WLState
  | 0, st => match st.pending with | [] => some st | _ => none
  | Nat.succ f, st =>
    match st.pending with
    | [] => some st
    | p :: rest => runLoop valid deps f (popResult valid deps p rest st)

/-- Lines 339-344: seed from the folder listing (already filtered to
`.py` names); the listing order is the list order, and Python pops from
the end, so the initial stack is the reversed listing.
`files_processed_and_queued = set(files_to_process)`. -/
def initState (seeds : List String) : WLState :=
  ⟨seeds.reverse, seeds, [], [], seeds⟩

/-- One loop iteration popping an arbitrary element of the stack: the
order-nondeterministic version of `popResult`, used to state that the
final output does not depend on the drain order. -/
inductive WStep (valid : String → Bool) (deps : String → List String) :
    WLState → WLState → Prop where
  | pop {st : WLState} (l₁ : List String) (p : String) (l₂ : List String) :
      st.pending = l₁ ++ p :: l₂ →
      WStep valid deps st (popResult valid deps p (l₁ ++ l₂) st)

/-- A run: any number of pop steps. -/
def WRun (valid : String → Bool) (deps : String → List String) :
    WLState → WLState → Prop :=
  Relation.ReflTransGen (WStep valid deps)

/-- The dependency closure of the seed set: what a drained run has
necessarily processed. -/
inductive Reach (valid : String → Bool) (deps : String → List String)
    (seeds : List String) : String → Prop where
  | seed {p : String} : p ∈ seeds → Reach valid deps seeds p
  | dep {p q : String} : Reach valid deps seeds p → valid p = true →
      q ∈ deps p → Reach valid deps seeds q

/-- Writing one output file into the flat folder: a later write to the
same name overwrites. -/
def writeFS (fs : String → Option String) (nm content : String) :
    String → Option String :=
  fun n => if n = nm then some content else fs n

/-- The folder contents after the run: the emitted files written in
order, each under its flattened `outName`, `content p` abstracting the
emitted text for source path `p`. -/
def finalFS (outN content : String → String) (emitted : List String) :
    String → Option String :=
  emitted.foldl (fun fs p => writeFS fs (outN p) (content p)) (fun _ => none)

/-- The push-time invariant: the stack holds no duplicates, everything
on it has been seen, and the seen set is exactly the set of paths ever
enqueued. -/
structure PInv (ps : PushState) : Prop where
  pend_seen : ∀ p ∈ ps.pending, p ∈ ps.seen
  pend_nd : ps.pending.Nodup
  seen_nd : ps.seen.Nodup
  enq_nd : ps.enqueued.Nodup
  seen_enq : ∀ p, p ∈ ps.seen ↔ p ∈ ps.enqueued

/-- The loop invariant of `edit_files_for_hf_compatibility`. -/
structure WInv (valid : String → Bool) (deps : String → List String)
    (seeds : List String) (st : WLState) : Prop where
  pend_seen : ∀ p ∈ st.pending, p ∈ st.seen
  pend_nd : st.pending.Nodup
  seen_nd : st.seen.Nodup
  enq_nd : st.enqueued.Nodup
  seen_enq : ∀ p, p ∈ st.seen ↔ p ∈ st.enqueued
  popped_nd : st.popped.Nodup
  popped_seen : ∀ p ∈ st.popped, p ∈ st.seen
  popped_pend : ∀ p ∈ st.popped, p ∉ st.pending
  seen_split : ∀ p ∈ st.seen, p ∈ st.popped ∨ p ∈ st.pending
  emitted_eq : st.emitted = st.popped.filter fun p => valid p
  deps_seen : ∀ p ∈ st.popped, valid p = true → ∀ q ∈ deps p, q ∈ st.seen
  seen_reach : ∀ p ∈ st.seen, Reach valid deps seeds p
  seeds_seen : ∀ p ∈ seeds, p ∈ st.seen

/-! ## Unparsing and re-parsing

Modelled from the spec: the Source Parser (§4.1, `parse(text) → tree`,
`unparse(tree) → text`) is CPython's `ast` module, external to the
repository.  `unparseStmt` emits the statement fragment in standard
surface syntax at 4-space indentation, exactly as `ast.unparse` lays it
out (in particular, a compound statement with an empty body emits its
header line and nothing below it).  `reparses` accepts a text exactly
when its lines form statements at consistent indentation in which every
block opened by a `class`/`def` header contains at least one statement —
the grammatical validity condition at stake for this fragment (`parse`
raises `SyntaxError` on an empty block). -/

def targetText : AssignTarget → String
  | .name s => s
  | .other s => s

def commaSep : List String → String
  | [] => ""
  | [s] => s
  | s :: r => s ++ ", " ++ commaSep r

def dotsOf (lvl : Nat) : String := String.mk (List.replicate lvl '.')

def joinAll : List String → String
  | [] => ""
  | s :: r => s ++ joinAll r

mutual
def unparseStmt (ind : Nat) : Stmt → List (Nat × String)
  | .importFrom lvl m ns =>
    [(ind, "from " ++ dotsOf lvl ++ (match m with | some s => s | none => "") ++
        " import " ++ commaSep ns)]
  | .imp ns => [(ind, "import " ++ commaSep ns)]
  | .classDef n b => (ind, "class " ++ n ++ ":") :: unparseBody (ind + 1) b
  | .funcDef n b => (ind, "def " ++ n ++ "():") :: unparseBody (ind + 1) b
  | .assign ts v =>
    [(ind, joinAll (ts.map fun t => targetText t ++ " = ") ++ v)]
  | .exprStmt s => [(ind, s)]

def unparseBody (ind : Nat) : List Stmt → List (Nat × String)
  | [] => []
  | s :: r => unparseStmt ind s ++ unparseBody ind r
end

def renderLine (l : Nat × String) : String :=
  String.mk (List.replicate (4 * l.1) ' ') ++ l.2

def renderLines (ls : List (Nat × String)) : String :=
  joinSegs '\n' (ls.map renderLine)

/-- `ast.unparse` followed by the file write: the emitted text. -/
def unparseModule (m : PyModule) : String :=
  renderLines (unparseBody 0 m.body)

def countLeadingSpaces : List Char → Nat
  | ' ' :: r => countLeadingSpaces r + 1
  | _ => 0

def parseLine (s : String) : Option (Nat × String) :=
  let c := countLeadingSpaces s.data
  let content := String.mk (s.data.drop c)
  if content = "" then none
  else if c % 4 = 0 then some (c / 4, content) else none

def parseLinesAux : List String → Option (List (Nat × String))
  | [] => some []
  | s :: r =>
    match parseLine s, parseLinesAux r with
    | some l, some ls => some (l :: ls)
    | _, _ => none

def parseLines (text : String) : Option (List (Nat × String)) :=
  parseLinesAux (pySplit '\n' text)

def endsWithColon (s : String) : Bool :=
  match s.data.getLast? with
  | some c => c = ':'
  | none => false

mutual
/-- Accept one statement at indentation `n`: a header line (ending in
`':'`) must be followed by a nonempty block one level deeper. -/
def chkStmtF : Nat → Nat → List (Nat × String) → Option (List (Nat × String))
  | 0, _, _ => none
  | Nat.succ f, n, ls =>
    match ls with
    | [] => none
    | (i, s) :: rest =>
      if i = n then
        if endsWithColon s then chkBlockF f (n + 1) rest else some rest
      else none

/-- Accept a nonempty sequence of statements at indentation `n`, up to
the first line at a different indentation. -/
def chkBlockF : Nat → Nat → List (Nat × String) → Option (List (Nat × String))
  | 0, _, _ => none
  | Nat.succ f, n, ls =>
    match chkStmtF f n ls with
    | none => none
    | some rest =>
      match rest with
      | [] => some []
      | (i, _) :: _ => if i = n then chkBlockF f n rest else some rest
end

/-- Does `parse` accept the text?  The empty text is the empty module;
otherwise every line must parse and the lines must form a module-level
block that consumes the whole text. -/
def reparses (text : String) : Bool :=
  if text = "" then true
  else
    match parseLines text with
    | none => false
    | some ls =>
      if chkBlockF (2 * ls.length + 2) 0 ls = some [] then true else false

mutual
def costS : Stmt → Nat
  | .classDef _ b => 1 + costL b
  | .funcDef _ b => 1 + costL b
  | _ => 1

def costL : List Stmt → Nat
  | [] => 0
  | s :: r => 1 + costS s + costL r
end

/-- The compound statement (if it is one) carries a nonempty body; true
of every node of any tree produced by parsing actual source text. -/
def compoundNonempty : Stmt → Bool
  | .classDef _ b => !b.isEmpty
  | .funcDef _ b => !b.isEmpty
  | _ => true

/-- A name as it appears in source: nonempty, no newline, colon or
space. -/
def identOk (s : String) : Bool :=
  !(s = "") && s.data.all fun c => c ≠ '\n' && c ≠ ':' && c ≠ ' '

/-- An opaque expression/statement text occupying (the end of) a single
line: nonempty, no newline, not starting with a space, not ending in a
colon. -/
def exprOk (s : String) : Bool :=
  !(s = "") && s.data.all (fun c => c ≠ '\n') &&
    (match s.data with | c :: _ => c ≠ ' ' | [] => true) &&
    (match s.data.getLast? with | some c => c ≠ ':' | none => true)

/-- The statement's own embedded strings are printable on a single
source line. -/
def stmtTextOk : Stmt → Bool
  | .importFrom _ m ns =>
    (match m with | some s => identOk s | none => true) && ns.all identOk
  | .imp ns => ns.all identOk
  | .classDef n _ => identOk n
  | .funcDef n _ => identOk n
  | .assign ts v => ts.all (fun t => identOk (targetText t)) && exprOk v
  | .exprStmt s => exprOk s

/-- An `ImportFrom` node the classifier treats as internal. -/
def isInternalImport : Stmt → Bool
  | .importFrom _ (some m) _ => pyStartsWith m "llmfoundry"
  | _ => false

theorem mem_nodesToRemove (L : List Stmt) (x : Stmt) :
    x ∈ nodesToRemove L ↔ (∃ t ∈ L, Occ x t) ∧ shouldRemove x = true := by
  simp [nodesToRemove, List.mem_filter, walkStmts_mem]

theorem contains_nodesToRemove (L : List Stmt) (x : Stmt) :
    (nodesToRemove L).contains x = true ↔
      (∃ t ∈ L, Occ x t) ∧ shouldRemove x = true := by
  simp [List.elem_iff, mem_nodesToRemove]

theorem stmtSize_pos (s : Stmt) : 1 ≤ stmtSize s := by
  cases s <;> simp [stmtSize]

theorem delete_eq_prune_aux :
    ∀ (n : Nat) (R L : List Stmt), stmtsSize L ≤ n →
      (∀ x, (∃ t ∈ L, Occ x t) →
        (R.contains x = true ↔ shouldRemove x = true)) →
      deleteStmts R L = pruneStmts L := by
  intro n
  induction n with
  | zero =>
    intro R L hsize hR
    cases L with
    | nil => rfl
    | cons s r =>
      exfalso
      have h1 := stmtSize_pos s
      simp only [stmtsSize] at hsize
      omega
  | succ n ih =>
    intro R L hsize hR
    cases L with
    | nil => rfl
    | cons s r =>
      have hs := hR s ⟨s, by simp, Occ.refl s⟩
      have hsize_r : stmtsSize r ≤ n := by
        have h1 := stmtSize_pos s
        simp only [stmtsSize] at hsize
        omega
      have hR_r : ∀ x, (∃ t ∈ r, Occ x t) →
          (R.contains x = true ↔ shouldRemove x = true) := by
        rintro x ⟨t, ht, hocc⟩
        exact hR x ⟨t, by simp [ht], hocc⟩
      by_cases hrem : shouldRemove s = true
      · have hc : R.contains s = true := hs.mpr hrem
        simp only [deleteStmts, pruneStmts, hc, hrem, if_true]
        exact ih R r hsize_r hR_r
      · have hc : ¬ R.contains s = true := fun h => hrem (hs.mp h)
        simp only [deleteStmts, pruneStmts, if_neg hc, if_neg hrem]
        refine congrArg₂ List.cons ?_ (ih R r hsize_r hR_r)
        have hbody : ∀ (nm : String) (b : List Stmt),
            s = .classDef nm b ∨ s = .funcDef nm b →
            deleteStmts R b = pruneStmts b := by
          rintro nm b hcase
          have hsize_b : stmtsSize b ≤ n := by
            have : stmtSize s = 1 + stmtsSize b := by
              rcases hcase with rfl | rfl <;> simp [stmtSize]
            simp only [stmtsSize] at hsize
            omega
          refine ih R b hsize_b ?_
          rintro x ⟨t, ht, hocc⟩
          refine hR x ⟨s, by simp, Occ.child ?_ hocc⟩
          rcases hcase with rfl | rfl <;> simpa [childrenOf] using ht
        cases s with
        | classDef nm b =>
          simpa [deleteStmt, pruneStmt] using hbody nm b (Or.inl rfl)
        | funcDef nm b =>
          simpa [deleteStmt, pruneStmt] using hbody nm b (Or.inr rfl)
        | importFrom lvl m ns => simp [deleteStmt, pruneStmt]
        | imp ns => simp [deleteStmt, pruneStmt]
        | assign ts v => simp [deleteStmt, pruneStmt]
        | exprStmt str => simp [deleteStmt, pruneStmt]

/-- The delete pass of `process_file` equals the recursive statement
filter: collected nodes are excised wherever they occur, everything else
is kept (recursively) in order. -/
theorem deleteStmts_nodesToRemove (L : List Stmt) :
    deleteStmts (nodesToRemove L) L = pruneStmts L := by
  refine delete_eq_prune_aux (stmtsSize L) _ L le_rfl ?_
  intro x hx
  rw [contains_nodesToRemove]
  exact ⟨fun h => h.2, fun h => ⟨hx, h⟩⟩

/-- Normal form of a successful `process_file` tree transformation:
rewrite internal imports everywhere, then filter out the removal
matches everywhere. -/
theorem processModule_ok (resolve : String → String) (m : PyModule)
    (out : PyModule) (ds : List String)
    (h : processModule resolve m = .ok (out, ds)) :
    out.body = pruneStmts (rewriteStmts m.body) ∧
      ds = collectDeps resolve m.body ∧
      hasNoneModule m.body = false := by
  by_cases hnone : hasNoneModule m.body = true
  · simp [processModule, hnone] at h
  · rw [processModule, if_neg hnone] at h
    simp only [Except.ok.injEq, Prod.mk.injEq] at h
    obtain ⟨h1, h2⟩ := h
    refine ⟨?_, h2.symm, by simpa using hnone⟩
    rw [← h1, deleteStmts_nodesToRemove]

/-! ## No excluded import survives (from-import forms) -/

theorem rewriteStmts_eq_map (L : List Stmt) :
    rewriteStmts L = L.map rewriteStmt := by
  induction L with
  | nil => rfl
  | cons s r ih => simp [rewriteStmts, ih]

theorem mem_pruneStmts (M : List Stmt) (x : Stmt) :
    x ∈ pruneStmts M ↔ ∃ y ∈ M, shouldRemove y = false ∧ x = pruneStmt y := by
  induction M with
  | nil => simp [pruneStmts]
  | cons s r ih =>
    by_cases hs : shouldRemove s = true
    · rw [pruneStmts, if_pos hs, ih]
      constructor
      · rintro ⟨y, hy, h1, h2⟩; exact ⟨y, by simp [hy], h1, h2⟩
      · rintro ⟨y, hy, h1, h2⟩
        rcases List.mem_cons.mp hy with rfl | hy
        · rw [hs] at h1; cases h1
        · exact ⟨y, hy, h1, h2⟩
    · rw [pruneStmts, if_neg hs]
      simp only [List.mem_cons, ih]
      constructor
      · rintro (rfl | ⟨y, hy, h1, h2⟩)
        · exact ⟨s, Or.inl rfl, by simpa using hs, rfl⟩
        · exact ⟨y, Or.inr hy, h1, h2⟩
      · rintro ⟨y, rfl | hy, h1, h2⟩
        · exact Or.inl h2
        · exact Or.inr ⟨y, hy, h1, h2⟩

theorem children_prune_rewrite (s : Stmt) :
    childrenOf (pruneStmt (rewriteStmt s)) =
      pruneStmts (rewriteStmts (childrenOf s)) := by
  cases s with
  | importFrom lvl m ns =>
    cases m with
    | none => simp [rewriteStmt, pruneStmt, childrenOf, rewriteStmts, pruneStmts]
    | some ms =>
      by_cases h : pyStartsWith ms "llmfoundry" <;>
        simp [rewriteStmt, pruneStmt, childrenOf, rewriteStmts, pruneStmts, h]
  | imp ns => simp [rewriteStmt, pruneStmt, childrenOf, rewriteStmts, pruneStmts]
  | classDef nm b => simp [rewriteStmt, pruneStmt, childrenOf]
  | funcDef nm b => simp [rewriteStmt, pruneStmt, childrenOf]
  | assign ts v => simp [rewriteStmt, pruneStmt, childrenOf, rewriteStmts, pruneStmts]
  | exprStmt str => simp [rewriteStmt, pruneStmt, childrenOf, rewriteStmts, pruneStmts]

theorem isExcludedImport_pruneStmt (y : Stmt) :
    isExcludedImport (pruneStmt y) = isExcludedImport y := by
  cases y <;> simp [pruneStmt, isExcludedImport]

/-- Two character-wise prefixes of the same string agree on their first
character; so a string cannot start with both of two prefixes whose
first characters differ. -/
theorem pyStartsWith_head_ne (m p₁ p₂ : String) (c₁ c₂ : Char)
    (cs₁ cs₂ : List Char) (h₁ : p₁.data = c₁ :: cs₁) (h₂ : p₂.data = c₂ :: cs₂)
    (hne : c₁ ≠ c₂) (h : pyStartsWith m p₁ = true) :
    pyStartsWith m p₂ = false := by
  cases hb : pyStartsWith m p₂ with
  | false => rfl
  | true =>
    exfalso
    simp only [pyStartsWith, List.isPrefixOf_iff_prefix] at h hb
    rw [h₁] at h
    rw [h₂] at hb
    rcases h with ⟨t₁, ht₁⟩
    rcases hb with ⟨t₂, ht₂⟩
    rw [← ht₁] at ht₂
    simp at ht₂
    exact hne ht₂.1.symm

theorem convert_data (m : String) :
    (convert_to_relative_import m).data =
      '.' :: (lastSeg (pySplit '.' m)).data := by
  simp [convert_to_relative_import, String.data_append]

theorem pyStartsWith_convert (m p : String) (c : Char) (cs : List Char)
    (hp : p.data = c :: cs) (hc : c ≠ '.') :
    pyStartsWith (convert_to_relative_import m) p = false := by
  cases hb : pyStartsWith (convert_to_relative_import m) p with
  | false => rfl
  | true =>
    exfalso
    simp only [pyStartsWith, List.isPrefixOf_iff_prefix, convert_data, hp] at hb
    rcases hb with ⟨t, ht⟩
    simp at ht
    exact hc ht.1

theorem data_llmfoundry : "llmfoundry".data = 'l' :: "lmfoundry".data := rfl

theorem data_composer : "composer".data = 'c' :: "omposer".data := rfl

theorem data_omegaconf : "omegaconf".data = 'o' :: "megaconf".data := rfl

/-- Core of the excluded-import absence property: inside the transformed
version of any statement that the prune pass kept, no excluded
from-import occurs. -/
theorem occ_processed_not_excluded :
    ∀ (x t : Stmt), Occ x t →
      ∀ s₀, t = pruneStmt (rewriteStmt s₀) →
        shouldRemove (rewriteStmt s₀) = false →
        isExcludedImport x = false := by
  intro x t hocc
  induction hocc with
  | refl =>
    rintro s₀ rfl hrem
    rw [isExcludedImport_pruneStmt]
    cases s₀ with
    | importFrom lvl m ns =>
      cases m with
      | none => simp [rewriteStmt, isExcludedImport]
      | some ms =>
        by_cases hllm : pyStartsWith ms "llmfoundry" = true
        · rw [rewriteStmt, if_pos hllm]
          simp only [isExcludedImport, Bool.or_eq_false_iff]
          constructor
          · exact pyStartsWith_convert ms "composer" 'c' _ data_composer
              (by decide)
          · exact pyStartsWith_convert ms "omegaconf" 'o' _ data_omegaconf
              (by decide)
        · rw [rewriteStmt, if_neg hllm] at hrem ⊢
          simp only [shouldRemove, Bool.and_eq_false_iff] at hrem
          rcases hrem with hrem | hrem
          · exact absurd (by simpa using hrem) hllm
          · simpa [isExcludedImport] using hrem
    | imp ns => simp [rewriteStmt, isExcludedImport]
    | classDef nm b => simp [rewriteStmt, isExcludedImport]
    | funcDef nm b => simp [rewriteStmt, isExcludedImport]
    | assign ts v => simp [rewriteStmt, isExcludedImport]
    | exprStmt str => simp [rewriteStmt, isExcludedImport]
  | child hu ho ih =>
    rintro s₀ rfl hrem
    rw [children_prune_rewrite] at hu
    rcases (mem_pruneStmts _ _).mp hu with ⟨y, hy, hyrem, rfl⟩
    rw [rewriteStmts_eq_map] at hy
    rcases List.mem_map.mp hy with ⟨y₀, _, rfl⟩
    exact ih y₀ rfl hyrem

/-! ## Worklist lemmas -/

theorem pushDeps_seen_mem : ∀ (ds : List String) (ps : PushState) (q : String),
    q ∈ (pushDeps ds ps).seen ↔ q ∈ ps.seen ∨ q ∈ ds := by
  intro ds
  induction ds with
  | nil => intro ps q; simp [pushDeps]
  | cons d ds ih =>
    intro ps q
    rw [pushDeps]
    by_cases hd : d ∈ ps.seen
    · rw [if_pos hd, ih]
      simp only [List.mem_cons]
      constructor
      · rintro (h | h)
        · exact Or.inl h
        · exact Or.inr (Or.inr h)
      · rintro (h | rfl | h)
        · exact Or.inl h
        · exact Or.inl hd
        · exact Or.inr h
    · rw [if_neg hd, ih]
      simp only [List.mem_cons]
      tauto

theorem pushDeps_pending_mem : ∀ (ds : List String) (ps : PushState) (q : String),
    q ∈ (pushDeps ds ps).pending ↔
      q ∈ ps.pending ∨ (q ∈ ds ∧ q ∉ ps.seen) := by
  intro ds
  induction ds with
  | nil => intro ps q; simp [pushDeps]
  | cons d ds ih =>
    intro ps q
    rw [pushDeps]
    by_cases hd : d ∈ ps.seen
    · rw [if_pos hd, ih]
      simp only [List.mem_cons]
      by_cases hq : q = d
      · subst hq; tauto
      · tauto
    · rw [if_neg hd, ih]
      simp only [List.mem_cons]
      by_cases hq : q = d
      · subst hq; tauto
      · tauto

theorem pushDeps_enq_mem : ∀ (ds : List String) (ps : PushState) (q : String),
    q ∈ (pushDeps ds ps).enqueued ↔
      q ∈ ps.enqueued ∨ (q ∈ ds ∧ q ∉ ps.seen) := by
  intro ds
  induction ds with
  | nil => intro ps q; simp [pushDeps]
  | cons d ds ih =>
    intro ps q
    rw [pushDeps]
    by_cases hd : d ∈ ps.seen
    · rw [if_pos hd, ih]
      simp only [List.mem_cons]
      by_cases hq : q = d
      · subst hq; tauto
      · tauto
    · rw [if_neg hd, ih]
      simp only [List.mem_cons, List.mem_append,
        List.mem_singleton]
      by_cases hq : q = d
      · subst hq; tauto
      · tauto

theorem pushDeps_pinv : ∀ (ds : List String) (ps : PushState),
    PInv ps → PInv (pushDeps ds ps) := by
  intro ds
  induction ds with
  | nil => intro ps h; simpa [pushDeps] using h
  | cons d ds ih =>
    intro ps h
    rw [pushDeps]
    by_cases hd : d ∈ ps.seen
    · rw [if_pos hd]; exact ih ps h
    · rw [if_neg hd]
      refine ih _ ⟨?_, ?_, ?_, ?_, ?_⟩
      · intro p hp
        rcases List.mem_cons.mp hp with rfl | hp
        · exact List.mem_cons_self _ _
        · exact List.mem_cons_of_mem _ (h.pend_seen p hp)
      · exact List.nodup_cons.mpr ⟨fun hc => hd (h.pend_seen d hc), h.pend_nd⟩
      · exact List.nodup_cons.mpr ⟨hd, h.seen_nd⟩
      · rw [List.nodup_append]
        refine ⟨h.enq_nd, List.nodup_singleton d, ?_⟩
        intro a ha hb
        rw [List.mem_singleton] at hb
        subst hb
        exact hd ((h.seen_enq a).mpr ha)
      · intro p
        simp only [List.mem_cons, List.mem_append, List.mem_singleton,
          h.seen_enq p]
        tauto

theorem pushDeps_len : ∀ (ds : List String) (ps : PushState),
    (pushDeps ds ps).pending.length + ps.seen.length =
      (pushDeps ds ps).seen.length + ps.pending.length := by
  intro ds
  induction ds with
  | nil => intro ps; rw [pushDeps]; omega
  | cons d ds ih =>
    intro ps
    rw [pushDeps]
    by_cases hd : d ∈ ps.seen
    · rw [if_pos hd]; exact ih ps
    · rw [if_neg hd]
      have := ih ⟨d :: ps.pending, d :: ps.seen, ps.enqueued ++ [d]⟩
      simp only [List.length_cons] at this
      omega

theorem pushDeps_pend_len_mono : ∀ (ds : List String) (ps : PushState),
    ps.pending.length ≤ (pushDeps ds ps).pending.length := by
  intro ds
  induction ds with
  | nil => intro ps; rw [pushDeps]
  | cons d ds ih =>
    intro ps
    rw [pushDeps]
    by_cases hd : d ∈ ps.seen
    · rw [if_pos hd]; exact ih ps
    · rw [if_neg hd]
      have := ih ⟨d :: ps.pending, d :: ps.seen, ps.enqueued ++ [d]⟩
      simp only [List.length_cons] at this
      omega

theorem wstep_inv {valid : String → Bool} {deps : String → List String}
    {seeds : List String} {st st' : WLState}
    (hstep : WStep valid deps st st') (hinv : WInv valid deps seeds st) :
    WInv valid deps seeds st' := by
  rcases hstep with ⟨l₁, p, l₂, hpend⟩
  have hp_pend : p ∈ st.pending := by rw [hpend]; simp
  have hp_seen : p ∈ st.seen := hinv.pend_seen p hp_pend
  have hmid : (p :: (l₁ ++ l₂)).Nodup := List.nodup_middle.mp (hpend ▸ hinv.pend_nd)
  have hp_not_rest : p ∉ l₁ ++ l₂ := (List.nodup_cons.mp hmid).1
  have hrest_nd : (l₁ ++ l₂).Nodup := (List.nodup_cons.mp hmid).2
  have hp_not_popped : p ∉ st.popped := fun h => hinv.popped_pend p h hp_pend
  have hrest_sub : ∀ q, q ∈ l₁ ++ l₂ → q ∈ st.pending := by
    intro q hq
    rw [hpend]
    simp only [List.mem_append, List.mem_cons] at hq ⊢
    tauto
  have hrest_seen : ∀ q ∈ l₁ ++ l₂, q ∈ st.seen :=
    fun q hq => hinv.pend_seen q (hrest_sub q hq)
  cases hv : valid p with
  | false =>
    have hres : popResult valid deps p (l₁ ++ l₂) st =
        ⟨l₁ ++ l₂, st.seen, st.emitted, st.popped ++ [p], st.enqueued⟩ := by
      simp [popResult, hv]
    rw [hres]
    refine ⟨hrest_seen, hrest_nd, hinv.seen_nd, hinv.enq_nd, hinv.seen_enq,
      ?_, ?_, ?_, ?_, ?_, ?_, hinv.seen_reach, hinv.seeds_seen⟩
    · rw [List.nodup_append]
      exact ⟨hinv.popped_nd, List.nodup_singleton p,
        fun a ha hb => (List.mem_singleton.mp hb ▸ hp_not_popped) ha⟩
    · intro q hq
      rcases List.mem_append.mp hq with hq | hq
      · exact hinv.popped_seen q hq
      · rw [List.mem_singleton.mp hq]; exact hp_seen
    · intro q hq
      rcases List.mem_append.mp hq with hq | hq
      · exact fun hc => hinv.popped_pend q hq (hrest_sub q hc)
      · rw [List.mem_singleton.mp hq]; exact hp_not_rest
    · intro q hq
      rcases hinv.seen_split q hq with hq2 | hq2
      · exact Or.inl (List.mem_append.mpr (Or.inl hq2))
      · rw [hpend] at hq2
        simp only [List.mem_append, List.mem_cons] at hq2
        rcases hq2 with hq2 | rfl | hq2
        · exact Or.inr (List.mem_append.mpr (Or.inl hq2))
        · exact Or.inl (List.mem_append.mpr (Or.inr (List.mem_singleton.mpr rfl)))
        · exact Or.inr (List.mem_append.mpr (Or.inr hq2))
    · rw [List.filter_append, hinv.emitted_eq]
      simp [hv]
    · intro q hq hqv d hd
      rcases List.mem_append.mp hq with hq | hq
      · exact hinv.deps_seen q hq hqv d hd
      · rw [List.mem_singleton.mp hq] at hqv
        rw [hv] at hqv
        cases hqv
  | true =>
    have hres : popResult valid deps p (l₁ ++ l₂) st =
        ⟨(pushDeps (deps p) ⟨l₁ ++ l₂, st.seen, st.enqueued⟩).pending,
         (pushDeps (deps p) ⟨l₁ ++ l₂, st.seen, st.enqueued⟩).seen,
         st.emitted ++ [p], st.popped ++ [p],
         (pushDeps (deps p) ⟨l₁ ++ l₂, st.seen, st.enqueued⟩).enqueued⟩ := by
      simp [popResult, hv]
    rw [hres]
    have hpinv : PInv ⟨l₁ ++ l₂, st.seen, st.enqueued⟩ :=
      ⟨hrest_seen, hrest_nd, hinv.seen_nd, hinv.enq_nd, hinv.seen_enq⟩
    have hpinv' := pushDeps_pinv (deps p) _ hpinv
    have hseen_mem : ∀ q, q ∈ (pushDeps (deps p) ⟨l₁ ++ l₂, st.seen, st.enqueued⟩).seen ↔
        q ∈ st.seen ∨ q ∈ deps p := fun q => pushDeps_seen_mem _ _ q
    have hpend_mem : ∀ q, q ∈ (pushDeps (deps p) ⟨l₁ ++ l₂, st.seen, st.enqueued⟩).pending ↔
        q ∈ l₁ ++ l₂ ∨ (q ∈ deps p ∧ q ∉ st.seen) := fun q => pushDeps_pending_mem _ _ q
    refine ⟨hpinv'.pend_seen, hpinv'.pend_nd, hpinv'.seen_nd, hpinv'.enq_nd,
      hpinv'.seen_enq, ?_, ?_, ?_, ?_, ?_, ?_, ?_, ?_⟩
    · rw [List.nodup_append]
      exact ⟨hinv.popped_nd, List.nodup_singleton p,
        fun a ha hb => (List.mem_singleton.mp hb ▸ hp_not_popped) ha⟩
    · intro q hq
      rw [hseen_mem]
      rcases List.mem_append.mp hq with hq | hq
      · exact Or.inl (hinv.popped_seen q hq)
      · rw [List.mem_singleton.mp hq]; exact Or.inl hp_seen
    · intro q hq hc
      rw [hpend_mem] at hc
      rcases List.mem_append.mp hq with hq | hq
      · rcases hc with hc | hc
        · exact hinv.popped_pend q hq (hrest_sub q hc)
        · exact hc.2 (hinv.popped_seen q hq)
      · rw [List.mem_singleton.mp hq] at hc
        rcases hc with hc | hc
        · exact hp_not_rest hc
        · exact hc.2 hp_seen
    · intro q hq
      rw [hseen_mem] at hq
      by_cases hqs : q ∈ st.seen
      · rcases hinv.seen_split q hqs with hq2 | hq2
        · exact Or.inl (List.mem_append.mpr (Or.inl hq2))
        · rw [hpend] at hq2
          simp only [List.mem_append, List.mem_cons] at hq2
          rcases hq2 with hq2 | rfl | hq2
          · exact Or.inr ((hpend_mem q).mpr (Or.inl (List.mem_append.mpr (Or.inl hq2))))
          · exact Or.inl (List.mem_append.mpr (Or.inr (List.mem_singleton.mpr rfl)))
          · exact Or.inr ((hpend_mem q).mpr (Or.inl (List.mem_append.mpr (Or.inr hq2))))
      · rcases hq with hq | hq
        · exact absurd hq hqs
        · exact Or.inr ((hpend_mem q).mpr (Or.inr ⟨hq, hqs⟩))
    · rw [List.filter_append, hinv.emitted_eq]
      simp [hv]
    · intro q hq hqv d hd
      rw [hseen_mem]
      rcases List.mem_append.mp hq with hq | hq
      · exact Or.inl (hinv.deps_seen q hq hqv d hd)
      · rw [List.mem_singleton.mp hq] at hd
        exact Or.inr hd
    · intro q hq
      rw [hseen_mem] at hq
      rcases hq with hq | hq
      · exact hinv.seen_reach q hq
      · exact Reach.dep (hinv.seen_reach p hp_seen) hv hq
    · intro q hq
      rw [hseen_mem]
      exact Or.inl (hinv.seeds_seen q hq)

theorem winv_init {valid : String → Bool} {deps : String → List String}
    (seeds : List String) (hnd : seeds.Nodup) :
    WInv valid deps seeds (initState seeds) := by
  refine ⟨?_, ?_, hnd, hnd, fun p => Iff.rfl, List.nodup_nil, ?_, ?_, ?_, rfl,
    ?_, ?_, ?_⟩
  · intro p hp
    simpa [initState] using List.mem_reverse.mp hp
  · simpa [initState] using hnd
  · intro p hp; cases hp
  · intro p hp; cases hp
  · intro p hp
    exact Or.inr (List.mem_reverse.mpr hp)
  · intro p hp; cases hp
  · intro p hp; exact Reach.seed hp
  · intro p hp; exact hp

theorem wrun_inv {valid : String → Bool} {deps : String → List String}
    {seeds : List String} {st st' : WLState}
    (hrun : WRun valid deps st st') (hinv : WInv valid deps seeds st) :
    WInv valid deps seeds st' := by
  induction hrun with
  | refl => exact hinv
  | tail _ hbc ih => exact wstep_inv hbc ih

theorem runLoop_drained {valid : String → Bool} {deps : String → List String} :
    ∀ (f : Nat) (st st' : WLState), runLoop valid deps f st = some st' →
      st'.pending = [] := by
  intro f
  induction f with
  | zero =>
    intro st st' h
    cases hp : st.pending with
    | nil => rw [runLoop, hp] at h; cases h; exact hp
    | cons p rest => rw [runLoop, hp] at h; cases h
  | succ f ih =>
    intro st st' h
    cases hp : st.pending with
    | nil => rw [runLoop, hp] at h; cases h; exact hp
    | cons p rest => rw [runLoop, hp] at h; exact ih _ _ h

theorem runLoop_wrun {valid : String → Bool} {deps : String → List String} :
    ∀ (f : Nat) (st st' : WLState), runLoop valid deps f st = some st' →
      WRun valid deps st st' := by
  intro f
  induction f with
  | zero =>
    intro st st' h
    cases hp : st.pending with
    | nil => rw [runLoop, hp] at h; cases h; exact Relation.ReflTransGen.refl
    | cons p rest => rw [runLoop, hp] at h; cases h
  | succ f ih =>
    intro st st' h
    cases hp : st.pending with
    | nil => rw [runLoop, hp] at h; cases h; exact Relation.ReflTransGen.refl
    | cons p rest =>
      rw [runLoop, hp] at h
      have hstep : WStep valid deps st (popResult valid deps p rest st) := by
        have := @WStep.pop valid deps st [] p rest (by simpa using hp)
        simpa using this
      exact Relation.ReflTransGen.head hstep (ih _ _ h)

theorem nodup_sub_card {l : List String} {U : Finset String}
    (hnd : l.Nodup) (hsub : ∀ x ∈ l, x ∈ U) : l.length ≤ U.card := by
  have h1 : l.toFinset.card = l.length := List.toFinset_card_of_nodup hnd
  have h2 : l.toFinset ⊆ U := fun x hx => hsub x (List.mem_toFinset.mp hx)
  calc l.length = l.toFinset.card := h1.symm
    _ ≤ U.card := Finset.card_le_card h2

/-- The drain terminates: fuel covering the pending stack plus the
not-yet-seen part of any finite dependency-closed universe suffices. -/
theorem runLoop_terminates {valid : String → Bool} {deps : String → List String}
    {seeds : List String} :
    ∀ (f : Nat) (st : WLState) (U : Finset String),
      WInv valid deps seeds st →
      (∀ p ∈ st.seen, p ∈ U) →
      (∀ p ∈ U, valid p = true → ∀ q ∈ deps p, q ∈ U) →
      st.pending.length + (U.card - st.seen.length) ≤ f →
      ∃ st', runLoop valid deps f st = some st' := by
  intro f
  induction f with
  | zero =>
    intro st U hinv hseenU hclosed hfuel
    have hlen : st.pending.length = 0 := by omega
    have hp : st.pending = [] := List.length_eq_zero.mp hlen
    exact ⟨st, by rw [runLoop, hp]⟩
  | succ f ih =>
    intro st U hinv hseenU hclosed hfuel
    cases hp : st.pending with
    | nil => exact ⟨st, by rw [runLoop, hp]⟩
    | cons p rest =>
      have hp_pend : p ∈ st.pending := by rw [hp]; simp
      have hp_seen : p ∈ st.seen := hinv.pend_seen p hp_pend
      have hstep : WStep valid deps st (popResult valid deps p rest st) := by
        have := @WStep.pop valid deps st [] p rest (by simpa using hp)
        simpa using this
      have hinv' := wstep_inv hstep hinv
      have hlen : st.pending.length = rest.length + 1 := by rw [hp]; simp
      cases hv : valid p with
      | false =>
        have hres : popResult valid deps p rest st =
            ⟨rest, st.seen, st.emitted, st.popped ++ [p], st.enqueued⟩ := by
          simp [popResult, hv]
        obtain ⟨st', hst'⟩ := ih (popResult valid deps p rest st) U
          (by rw [hres] at hinv' ⊢; exact hinv')
          (by rw [hres]; exact hseenU) hclosed (by rw [hres]; simp; omega)
        exact ⟨st', by rw [runLoop, hp]; exact hst'⟩
      | true =>
        have hres : popResult valid deps p rest st =
            ⟨(pushDeps (deps p) ⟨rest, st.seen, st.enqueued⟩).pending,
             (pushDeps (deps p) ⟨rest, st.seen, st.enqueued⟩).seen,
             st.emitted ++ [p], st.popped ++ [p],
             (pushDeps (deps p) ⟨rest, st.seen, st.enqueued⟩).enqueued⟩ := by
          simp [popResult, hv]
        have hlenq := pushDeps_len (deps p) ⟨rest, st.seen, st.enqueued⟩
        have hmono := pushDeps_pend_len_mono (deps p) ⟨rest, st.seen, st.enqueued⟩
        simp only at hlenq hmono
        have hseenU' : ∀ q ∈ (pushDeps (deps p) ⟨rest, st.seen, st.enqueued⟩).seen,
            q ∈ U := by
          intro q hq
          rcases (pushDeps_seen_mem _ _ q).mp hq with hq | hq
          · exact hseenU q hq
          · exact hclosed p (hseenU p hp_seen) hv q hq
        have hcard : (pushDeps (deps p) ⟨rest, st.seen, st.enqueued⟩).seen.length ≤
            U.card := by
          refine nodup_sub_card ?_ hseenU'
          have : PInv ⟨rest, st.seen, st.enqueued⟩ := by
            refine ⟨?_, ?_, hinv.seen_nd, hinv.enq_nd, hinv.seen_enq⟩
            · intro q hq
              exact hinv.pend_seen q (by rw [hp]; simp [hq])
            · have := hinv.pend_nd
              rw [hp] at this
              exact (List.nodup_cons.mp this).2
          exact (pushDeps_pinv _ _ this).seen_nd
        obtain ⟨st', hst'⟩ := ih (popResult valid deps p rest st) U
          (by rw [hres] at hinv' ⊢; exact hinv')
          (by rw [hres]; exact hseenU') hclosed
          (by rw [hres]; simp only; omega)
        exact ⟨st', by rw [runLoop, hp]; exact hst'⟩

/-- At the end of a run the seen set is exactly the dependency closure
of the seeds. -/
theorem winv_complete_seen {valid : String → Bool} {deps : String → List String}
    {seeds : List String} {st : WLState}
    (hinv : WInv valid deps seeds st) (hdone : st.pending = []) :
    ∀ q, q ∈ st.seen ↔ Reach valid deps seeds q := by
  intro q
  constructor
  · exact hinv.seen_reach q
  · intro hreach
    induction hreach with
    | seed h => exact hinv.seeds_seen _ h
    | dep _ hval hq ih =>
      rcases hinv.seen_split _ ih with hpop | hpend
      · exact hinv.deps_seen _ hpop hval _ hq
      · rw [hdone] at hpend; cases hpend

/-- At the end of a run the emitted paths are exactly the valid members
of the dependency closure. -/
theorem winv_complete_emitted {valid : String → Bool} {deps : String → List String}
    {seeds : List String} {st : WLState}
    (hinv : WInv valid deps seeds st) (hdone : st.pending = []) :
    ∀ q, q ∈ st.emitted ↔ (Reach valid deps seeds q ∧ valid q = true) := by
  intro q
  rw [hinv.emitted_eq, List.mem_filter]
  constructor
  · rintro ⟨hpop, hval⟩
    exact ⟨(winv_complete_seen hinv hdone q).mp (hinv.popped_seen _ hpop), hval⟩
  · rintro ⟨hreach, hval⟩
    have hseen := (winv_complete_seen hinv hdone q).mpr hreach
    rcases hinv.seen_split _ hseen with hpop | hpend
    · exact ⟨hpop, hval⟩
    · rw [hdone] at hpend; cases hpend

/-! ## More tree lemmas: rewriting commutes with the predicates -/

theorem shouldRemove_rewriteStmt (y : Stmt) :
    shouldRemove (rewriteStmt y) = shouldRemove y := by
  cases y with
  | importFrom lvl m ns =>
    cases m with
    | none => rfl
    | some ms =>
      by_cases hllm : pyStartsWith ms "llmfoundry" = true
      · rw [rewriteStmt, if_pos hllm]
        simp only [shouldRemove, hllm, Bool.not_true, Bool.false_and]
        have hc : pyStartsWith (convert_to_relative_import ms) "composer" = false :=
          pyStartsWith_convert ms "composer" 'c' _ data_composer (by decide)
        have ho : pyStartsWith (convert_to_relative_import ms) "omegaconf" = false :=
          pyStartsWith_convert ms "omegaconf" 'o' _ data_omegaconf (by decide)
        simp [hc, ho]
      · rw [rewriteStmt, if_neg hllm]
  | imp ns => rfl
  | classDef n b => rfl
  | funcDef n b => rfl
  | assign ts v => rfl
  | exprStmt s => rfl

theorem children_rewrite (t : Stmt) :
    childrenOf (rewriteStmt t) = rewriteStmts (childrenOf t) := by
  cases t with
  | importFrom lvl m ns =>
    cases m with
    | none => rfl
    | some ms =>
      by_cases hllm : pyStartsWith ms "llmfoundry" = true <;>
        simp [rewriteStmt, childrenOf, rewriteStmts, hllm]
  | imp ns => rfl
  | classDef n b => rfl
  | funcDef n b => rfl
  | assign ts v => rfl
  | exprStmt s => rfl

/-- Everything occurring in a rewritten statement is the rewrite of
something occurring in the original. -/
theorem occ_rewrite : ∀ (x t' : Stmt), Occ x t' → ∀ t, t' = rewriteStmt t →
    ∃ y, Occ y t ∧ x = rewriteStmt y := by
  intro x t' hocc
  induction hocc with
  | refl => exact fun t ht => ⟨t, Occ.refl t, ht⟩
  | child hu _ ih =>
    rintro t rfl
    rw [children_rewrite, rewriteStmts_eq_map] at hu
    rcases List.mem_map.mp hu with ⟨u₀, hu₀, rfl⟩
    rcases ih u₀ rfl with ⟨y, hy, rfl⟩
    exact ⟨y, Occ.child hu₀ hy, rfl⟩

/-- The prune pass is the identity on trees with no removal match. -/
theorem prune_noop_aux : ∀ (n : Nat) (L : List Stmt), stmtsSize L ≤ n →
    (∀ x, (∃ t ∈ L, Occ x t) → shouldRemove x = false) →
    pruneStmts L = L := by
  intro n
  induction n with
  | zero =>
    intro L hsize h
    cases L with
    | nil => rfl
    | cons s r =>
      exfalso
      have := stmtSize_pos s
      simp only [stmtsSize] at hsize
      omega
  | succ n ih =>
    intro L hsize h
    cases L with
    | nil => rfl
    | cons s r =>
      have hs : shouldRemove s = false := h s ⟨s, by simp, Occ.refl s⟩
      have hsize_r : stmtsSize r ≤ n := by
        have := stmtSize_pos s
        simp only [stmtsSize] at hsize
        omega
      have hr : pruneStmts r = r := by
        refine ih r hsize_r ?_
        rintro x ⟨t, ht, hocc⟩
        exact h x ⟨t, by simp [ht], hocc⟩
      rw [pruneStmts, if_neg (by simp [hs]), hr]
      congr 1
      cases s with
      | classDef nm b =>
        have hb : pruneStmts b = b := by
          refine ih b ?_ ?_
          · simp only [stmtsSize, stmtSize] at hsize ⊢
            omega
          · rintro x ⟨t, ht, hocc⟩
            exact h x ⟨.classDef nm b, by simp, Occ.child (by simpa [childrenOf] using ht) hocc⟩
        simp [pruneStmt, hb]
      | funcDef nm b =>
        have hb : pruneStmts b = b := by
          refine ih b ?_ ?_
          · simp only [stmtsSize, stmtSize] at hsize ⊢
            omega
          · rintro x ⟨t, ht, hocc⟩
            exact h x ⟨.funcDef nm b, by simp, Occ.child (by simpa [childrenOf] using ht) hocc⟩
        simp [pruneStmt, hb]
      | importFrom lvl m ns => simp [pruneStmt]
      | imp ns => simp [pruneStmt]
      | assign ts v => simp [pruneStmt]
      | exprStmt str => simp [pruneStmt]

/-- The rewrite pass is the identity on trees with no internal import. -/
theorem rewrite_noop_aux : ∀ (n : Nat) (L : List Stmt), stmtsSize L ≤ n →
    (∀ x, (∃ t ∈ L, Occ x t) → isInternalImport x = false) →
    rewriteStmts L = L := by
  intro n
  induction n with
  | zero =>
    intro L hsize h
    cases L with
    | nil => rfl
    | cons s r =>
      exfalso
      have := stmtSize_pos s
      simp only [stmtsSize] at hsize
      omega
  | succ n ih =>
    intro L hsize h
    cases L with
    | nil => rfl
    | cons s r =>
      have hsize_r : stmtsSize r ≤ n := by
        have := stmtSize_pos s
        simp only [stmtsSize] at hsize
        omega
      have hr : rewriteStmts r = r := by
        refine ih r hsize_r ?_
        rintro x ⟨t, ht, hocc⟩
        exact h x ⟨t, by simp [ht], hocc⟩
      rw [rewriteStmts, hr]
      congr 1
      cases s with
      | importFrom lvl m ns =>
        cases m with
        | none => rfl
        | some ms =>
          have hs : isInternalImport (.importFrom lvl (some ms) ns) = false :=
            h _ ⟨_, by simp, Occ.refl _⟩
          simp only [isInternalImport] at hs
          rw [rewriteStmt, if_neg (by simp [hs])]
      | imp ns => rfl
      | classDef nm b =>
        have hb : rewriteStmts b = b := by
          refine ih b ?_ ?_
          · simp only [stmtsSize, stmtSize] at hsize ⊢
            omega
          · rintro x ⟨t, ht, hocc⟩
            exact h x ⟨.classDef nm b, by simp, Occ.child (by simpa [childrenOf] using ht) hocc⟩
        simp [rewriteStmt, hb]
      | funcDef nm b =>
        have hb : rewriteStmts b = b := by
          refine ih b ?_ ?_
          · simp only [stmtsSize, stmtSize] at hsize ⊢
            omega
          · rintro x ⟨t, ht, hocc⟩
            exact h x ⟨.funcDef nm b, by simp, Occ.child (by simpa [childrenOf] using ht) hocc⟩
        simp [rewriteStmt, hb]
      | assign ts v => rfl
      | exprStmt str => rfl

theorem collectDeps_nil (resolve : String → String) (body : List Stmt)
    (h : ∀ x ∈ walkStmts body, isInternalImport x = false) :
    collectDeps resolve body = [] := by
  rw [collectDeps, List.filterMap_eq_nil_iff]
  intro s hs
  have := h s hs
  cases s with
  | importFrom lvl m ns =>
    cases m with
    | none => rfl
    | some ms =>
      simp only [isInternalImport] at this
      simp [this]
  | imp ns => rfl
  | classDef nm b => rfl
  | funcDef nm b => rfl
  | assign ts v => rfl
  | exprStmt str => rfl

/-! ## The final folder contents -/

theorem finalFS_foldl_spec (outN content : String → String) :
    ∀ (r : List String) (init : String → Option String) (n : String),
      r.Nodup → (∀ p ∈ r, ∀ q ∈ r, outN p = outN q → p = q) →
      List.foldl (fun fs p => writeFS fs (outN p) (content p)) init r n =
        (match r.find? (fun p => outN p == n) with
         | some q => some (content q)
         | none => init n) := by
  intro r
  induction r with
  | nil => intro init n _ _; rfl
  | cons q r ih =>
    intro init n hnd hinj
    have hq_nr : q ∉ r := (List.nodup_cons.mp hnd).1
    have hnd' : r.Nodup := (List.nodup_cons.mp hnd).2
    have hinj' : ∀ p ∈ r, ∀ p₂ ∈ r, outN p = outN p₂ → p = p₂ :=
      fun p hp p₂ hp₂ => hinj p (by simp [hp]) p₂ (by simp [hp₂])
    rw [List.foldl_cons, ih _ _ hnd' hinj']
    by_cases hqn : outN q = n
    · have hfind : (q :: r).find? (fun p => outN p == n) = some q := by
        rw [List.find?_cons_of_pos]
        simp [hqn]
      rw [hfind]
      have hnone : r.find? (fun p => outN p == n) = none := by
        rw [List.find?_eq_none]
        intro x hx
        simp only [beq_iff_eq]
        intro hcontra
        have hxq : x = q := hinj x (by simp [hx]) q (by simp) (by rw [hcontra, hqn])
        exact hq_nr (hxq ▸ hx)
      rw [hnone]
      simp [writeFS, hqn]
    · have hfind : (q :: r).find? (fun p => outN p == n) =
          r.find? (fun p => outN p == n) := by
        rw [List.find?_cons_of_neg]
        simp [hqn]
      rw [hfind]
      cases hf : r.find? (fun p => outN p == n) with
      | some x => rfl
      | none =>
        show writeFS init (outN q) (content q) n = init n
        rw [writeFS, if_neg (fun h => hqn h.symm)]

theorem finalFS_spec (outN content : String → String) (l : List String)
    (hnd : l.Nodup) (hinj : ∀ p ∈ l, ∀ q ∈ l, outN p = outN q → p = q)
    (n : String) :
    finalFS outN content l n =
      (match l.find? (fun p => outN p == n) with
       | some q => some (content q)
       | none => none) :=
  finalFS_foldl_spec outN content l _ n hnd hinj

/-- With duplicate-free writes and collision-free names, the final
folder contents depend only on the set of emitted paths. -/
theorem finalFS_congr (outN content : String → String) (l₁ l₂ : List String)
    (h₁ : l₁.Nodup) (h₂ : l₂.Nodup) (hmem : ∀ p, p ∈ l₁ ↔ p ∈ l₂)
    (hinj : ∀ p ∈ l₁, ∀ q ∈ l₁, outN p = outN q → p = q) (n : String) :
    finalFS outN content l₁ n = finalFS outN content l₂ n := by
  have hinj₂ : ∀ p ∈ l₂, ∀ q ∈ l₂, outN p = outN q → p = q :=
    fun p hp q hq => hinj p ((hmem p).mpr hp) q ((hmem q).mpr hq)
  rw [finalFS_spec outN content l₁ h₁ hinj n,
    finalFS_spec outN content l₂ h₂ hinj₂ n]
  cases hf₁ : l₁.find? (fun p => outN p == n) with
  | some q₁ =>
    have hq₁ : outN q₁ = n := by simpa using List.find?_some hf₁
    have hq₁m : q₁ ∈ l₁ := List.mem_of_find?_eq_some hf₁
    cases hf₂ : l₂.find? (fun p => outN p == n) with
    | some q₂ =>
      have hq₂ : outN q₂ = n := by simpa using List.find?_some hf₂
      have hq₂m : q₂ ∈ l₂ := List.mem_of_find?_eq_some hf₂
      have : q₁ = q₂ := hinj q₁ hq₁m q₂ ((hmem q₂).mpr hq₂m) (by rw [hq₁, hq₂])
      rw [this]
    | none =>
      exfalso
      have := List.find?_eq_none.mp hf₂ q₁ ((hmem q₁).mp hq₁m)
      simp [hq₁] at this
  | none =>
    cases hf₂ : l₂.find? (fun p => outN p == n) with
    | some q₂ =>
      exfalso
      have hq₂m : q₂ ∈ l₂ := List.mem_of_find?_eq_some hf₂
      have := List.find?_eq_none.mp hf₁ q₂ ((hmem q₂).mpr hq₂m)
      have hq₂ : outN q₂ = n := by simpa using List.find?_some hf₂
      simp [hq₂] at this
    | none => rfl

/-- `Reach` depends on the seed list only through membership. -/
theorem reach_congr {valid : String → Bool} {deps : String → List String}
    {s₁ s₂ : List String} (hmem : ∀ p, p ∈ s₁ ↔ p ∈ s₂) {q : String}
    (h : Reach valid deps s₁ q) : Reach valid deps s₂ q := by
  induction h with
  | seed h => exact Reach.seed ((hmem _).mp h)
  | dep _ hv hq ih => exact Reach.dep ih hv hq

/-! ## Round-trip lemmas: rendered lines parse back -/

theorem countLeadingSpaces_replicate (k : Nat) (d : List Char) :
    countLeadingSpaces (List.replicate k ' ' ++ d) = k + countLeadingSpaces d := by
  induction k with
  | zero => simp
  | succ k ih =>
    rw [List.replicate_succ, List.cons_append, countLeadingSpaces]
    omega

theorem countLeadingSpaces_head (d : List Char)
    (h : match d with | c :: _ => c ≠ ' ' | [] => True) :
    countLeadingSpaces d = 0 := by
  cases d with
  | nil => rfl
  | cons c r =>
    rw [countLeadingSpaces.eq_def]
    simp only at h
    cases hc : c == ' ' with
    | true => exact absurd (by simpa using hc) h
    | false =>
      have : c ≠ ' ' := by simpa using hc
      cases c
      simp_all [countLeadingSpaces]

theorem string_eq_empty_iff (s : String) : s = "" ↔ s.data = [] := by
  constructor
  · rintro rfl; rfl
  · intro h; apply String.ext; simpa using h

theorem parseLine_render (n : Nat) (s : String) (hne : s ≠ "")
    (hhead : match s.data with | c :: _ => c ≠ ' ' | [] => True) :
    parseLine (renderLine (n, s)) = some (n, s) := by
  have hdata : (renderLine (n, s)).data = List.replicate (4 * n) ' ' ++ s.data := by
    simp [renderLine, String.data_append]
  rw [parseLine, hdata, countLeadingSpaces_replicate,
    countLeadingSpaces_head s.data hhead]
  have hdrop : (List.replicate (4 * n) ' ' ++ s.data).drop (4 * n + 0) =
      s.data := by
    have hgen := List.drop_left (List.replicate (4 * n) ' ') s.data
    simp only [List.length_replicate, Nat.add_zero] at hgen ⊢
    exact hgen
  rw [hdrop]
  have hmk : String.mk s.data = s := rfl
  rw [hmk, if_neg hne]
  have h4 : (4 * n + 0) % 4 = 0 := by omega
  have h4b : (4 * n + 0) / 4 = n := by omega
  simp [h4, h4b]

theorem renderLine_data (l : Nat × String) :
    (renderLine l).data = List.replicate (4 * l.1) ' ' ++ l.2.data := by
  simp [renderLine, String.data_append]

theorem parseLinesAux_map_render (ls : List (Nat × String))
    (h : ∀ l ∈ ls, l.2 ≠ "" ∧
      (match l.2.data with | c :: _ => c ≠ ' ' | [] => True)) :
    parseLinesAux (ls.map renderLine) = some ls := by
  induction ls with
  | nil => rfl
  | cons l ls ih =>
    have hl := h l (by simp)
    rw [List.map_cons, parseLinesAux,
      parseLine_render l.1 l.2 hl.1 hl.2,
      ih (fun x hx => h x (by simp [hx]))]

theorem parseLines_render (ls : List (Nat × String)) (hne : ls ≠ [])
    (h : ∀ l ∈ ls, l.2 ≠ "" ∧
      (match l.2.data with | c :: _ => c ≠ ' ' | [] => True) ∧
      ('\n' : Char) ∉ l.2.data) :
    parseLines (renderLines ls) = some ls := by
  rw [parseLines, renderLines]
  have hne2 : (ls.map renderLine).map String.data ≠ [] := by
    simp [hne]
  have hsep2 : ∀ seg ∈ (ls.map renderLine).map String.data, ('\n' : Char) ∉ seg := by
    intro seg hseg
    rcases List.mem_map.mp hseg with ⟨line, hline, rfl⟩
    rcases List.mem_map.mp hline with ⟨l, hl, rfl⟩
    rw [renderLine_data]
    intro hc
    rcases List.mem_append.mp hc with hc | hc
    · exact absurd (List.eq_of_mem_replicate hc) (by decide)
    · exact (h l hl).2.2 hc
  have hsplit : pySplit '\n' (joinSegs '\n' (ls.map renderLine)) =
      ls.map renderLine := by
    rw [pySplit, joinSegs]
    have hd : (String.mk (joinChar '\n' ((ls.map renderLine).map String.data))).data
        = joinChar '\n' ((ls.map renderLine).map String.data) := rfl
    rw [hd, pySplitChar_joinChar '\n' _ hne2 hsep2, List.map_map]
    have hid : ∀ x ∈ ls.map renderLine, (String.mk ∘ String.data) x = x :=
      fun x _ => rfl
    rw [List.map_congr_left hid, List.map_id']
  rw [hsplit]
  exact parseLinesAux_map_render ls (fun l hl => ⟨(h l hl).1, (h l hl).2.1⟩)

theorem data_append_mem (a b : String) (c : Char) :
    c ∈ (a ++ b).data ↔ c ∈ a.data ∨ c ∈ b.data := by
  simp [String.data_append]

theorem identOk_chars {s : String} (h : identOk s = true) :
    ∀ c ∈ s.data, c ≠ '\n' ∧ c ≠ ':' ∧ c ≠ ' ' := by
  intro c hc
  simp only [identOk, Bool.and_eq_true, List.all_eq_true] at h
  have := h.2 c hc
  simp only [Bool.and_eq_true, decide_eq_true_eq] at this
  exact ⟨this.1.1, this.1.2, this.2⟩

theorem identOk_ne {s : String} (h : identOk s = true) : s ≠ "" := by
  simp only [identOk, Bool.and_eq_true, Bool.not_eq_true',
    decide_eq_false_iff_not] at h
  exact h.1

theorem exprOk_parts {s : String} (h : exprOk s = true) :
    s ≠ "" ∧ (∀ c ∈ s.data, c ≠ '\n') ∧
      (match s.data with | c :: _ => c ≠ ' ' | [] => True) ∧
      (match s.data.getLast? with | some c => c ≠ ':' | none => True) := by
  simp only [exprOk, Bool.and_eq_true, Bool.not_eq_true',
    decide_eq_false_iff_not, List.all_eq_true] at h
  obtain ⟨⟨⟨h1, h2⟩, h3⟩, h4⟩ := h
  refine ⟨h1, fun c hc => by simpa using h2 c hc, ?_, ?_⟩
  · cases hd : s.data with
    | nil => trivial
    | cons c r =>
      rw [hd] at h3
      simpa using h3
  · cases hd : s.data.getLast? with
    | none => trivial
    | some c =>
      rw [hd] at h4
      simpa using h4

theorem commaSep_chars : ∀ (ns : List String) (c : Char),
    c ∈ (commaSep ns).data → (∃ nm ∈ ns, c ∈ nm.data) ∨ c = ',' ∨ c = ' ' := by
  intro ns
  induction ns with
  | nil => intro c hc; cases hc
  | cons s r ih =>
    cases r with
    | nil =>
      intro c hc
      exact Or.inl ⟨s, by simp, by simpa [commaSep] using hc⟩
    | cons s₂ r₂ =>
      intro c hc
      have hce : commaSep (s :: s₂ :: r₂) = (s ++ ", ") ++ commaSep (s₂ :: r₂) := rfl
      rw [hce, data_append_mem, data_append_mem] at hc
      rcases hc with (hc | hc) | hc
      · exact Or.inl ⟨s, by simp, hc⟩
      · right
        have : ", ".data = [',', ' '] := rfl
        rw [this] at hc
        simpa using hc
      · rcases ih c hc with ⟨nm, hnm, hcnm⟩ | hc
        · exact Or.inl ⟨nm, by simp [hnm], hcnm⟩
        · exact Or.inr hc

theorem joinAll_chars : ∀ (L : List String) (c : Char),
    c ∈ (joinAll L).data → ∃ s ∈ L, c ∈ s.data := by
  intro L
  induction L with
  | nil => intro c hc; cases hc
  | cons s r ih =>
    intro c hc
    rw [joinAll, data_append_mem] at hc
    rcases hc with hc | hc
    · exact ⟨s, by simp, hc⟩
    · rcases ih c hc with ⟨x, hx, hcx⟩
      exact ⟨x, by simp [hx], hcx⟩

theorem endsWithColon_concat (a : String) : endsWithColon (a ++ ":") = true := by
  have hdata : (a ++ ":").data = a.data ++ [':'] := by
    rw [String.data_append]
  simp [endsWithColon, hdata]

theorem endsWithColon_false_of_no_colon (s : String)
    (h : (':' : Char) ∉ s.data) : endsWithColon s = false := by
  cases hd : s.data.getLast? with
  | none => simp [endsWithColon, hd]
  | some c =>
    have hmem : c ∈ s.data := List.mem_of_mem_getLast? hd
    have hc : c ≠ ':' := fun hcc => h (hcc ▸ hmem)
    simp [endsWithColon, hd, hc]

theorem endsWithColon_false_of_last_ne (s : String)
    (h : match s.data.getLast? with | some c => c ≠ ':' | none => True) :
    endsWithColon s = false := by
  cases hd : s.data.getLast? with
  | none => simp [endsWithColon, hd]
  | some c =>
    rw [hd] at h
    simp only at h
    simp [endsWithColon, hd, h]

/-- The property each rendered line needs for `parseLines` to invert
`renderLines`. -/
def lineTextOk (str : String) : Prop :=
  str ≠ "" ∧ (match str.data with | c :: _ => c ≠ ' ' | [] => True) ∧
    ('\n' : Char) ∉ str.data

theorem lineTextOk_of_data {str : String} (c : Char) (cs : List Char)
    (hd : str.data = c :: cs) (hc : c ≠ ' ')
    (hn : ('\n' : Char) ∉ str.data) : lineTextOk str := by
  refine ⟨?_, ?_, hn⟩
  · intro heq
    subst heq
    simp at hd
  · rw [hd]
    simpa using hc

theorem importFrom_line_ok (lvl : Nat) (M : String) (ns : List String)
    (hM : ∀ c ∈ M.data, c ≠ '\n') (hns : ∀ nm ∈ ns, identOk nm = true) :
    lineTextOk ("from " ++ dotsOf lvl ++ M ++ " import " ++ commaSep ns) := by
  have hdata : ("from " ++ dotsOf lvl ++ M ++ " import " ++ commaSep ns).data =
      'f' :: ("rom".data ++ [' '] ++ List.replicate lvl '.' ++ M.data ++
        " import ".data ++ (commaSep ns).data) := by
    simp only [String.data_append, dotsOf]
    rfl
  refine lineTextOk_of_data _ _ hdata (by decide) ?_
  rw [hdata]
  intro hc
  rcases List.mem_cons.mp hc with hc | hc
  · cases hc
  · simp only [List.mem_append] at hc
    rcases hc with ((((hc | hc) | hc) | hc) | hc) | hc
    · revert hc; decide
    · revert hc; decide
    · exact absurd (List.eq_of_mem_replicate hc) (by decide)
    · exact hM _ hc rfl
    · revert hc; decide
    · rcases commaSep_chars ns _ hc with ⟨nm, hnm, hcnm⟩ | hc
      · exact (identOk_chars (hns nm hnm) _ hcnm).1 rfl
      · rcases hc with hc | hc <;> cases hc

theorem imp_line_ok (ns : List String)
    (hns : ∀ nm ∈ ns, identOk nm = true) :
    lineTextOk ("import " ++ commaSep ns) := by
  have hdata : ("import " ++ commaSep ns).data =
      'i' :: ("mport ".data ++ (commaSep ns).data) := by
    simp only [String.data_append]
    rfl
  refine lineTextOk_of_data _ _ hdata (by decide) ?_
  rw [hdata]
  intro hc
  rcases List.mem_cons.mp hc with hc | hc
  · cases hc
  · simp only [List.mem_append] at hc
    rcases hc with hc | hc
    · revert hc; decide
    · rcases commaSep_chars ns _ hc with ⟨nm, hnm, hcnm⟩ | hc
      · exact (identOk_chars (hns nm hnm) _ hcnm).1 rfl
      · rcases hc with hc | hc <;> cases hc

theorem class_header_line_ok (nm : String) (hnm : identOk nm = true) :
    lineTextOk ("class " ++ nm ++ ":") := by
  have hdata : ("class " ++ nm ++ ":").data =
      'c' :: ("lass ".data ++ nm.data ++ [':']) := by
    simp only [String.data_append]
    rfl
  refine lineTextOk_of_data _ _ hdata (by decide) ?_
  rw [hdata]
  intro hc
  rcases List.mem_cons.mp hc with hc | hc
  · cases hc
  · simp only [List.mem_append] at hc
    rcases hc with (hc | hc) | hc
    · revert hc; decide
    · exact (identOk_chars hnm _ hc).1 rfl
    · simp at hc

theorem def_header_line_ok (nm : String) (hnm : identOk nm = true) :
    lineTextOk ("def " ++ nm ++ "():") := by
  have hdata : ("def " ++ nm ++ "():").data =
      'd' :: ("ef ".data ++ nm.data ++ "():".data) := by
    simp only [String.data_append]
    rfl
  refine lineTextOk_of_data _ _ hdata (by decide) ?_
  rw [hdata]
  intro hc
  rcases List.mem_cons.mp hc with hc | hc
  · cases hc
  · simp only [List.mem_append] at hc
    rcases hc with (hc | hc) | hc
    · revert hc; decide
    · exact (identOk_chars hnm _ hc).1 rfl
    · revert hc; decide

theorem exprStmt_line_ok (str : String) (h : exprOk str = true) :
    lineTextOk str := by
  have hv := exprOk_parts h
  exact ⟨hv.1, hv.2.2.1, fun hc => hv.2.1 _ hc rfl⟩

theorem assign_line_ok (ts : List AssignTarget) (v : String)
    (hts : ∀ t ∈ ts, identOk (targetText t) = true) (hv0 : exprOk v = true) :
    lineTextOk (joinAll (ts.map fun t => targetText t ++ " = ") ++ v) := by
  have hv := exprOk_parts hv0
  have hnl : ('\n' : Char) ∉
      (joinAll (ts.map fun t => targetText t ++ " = ") ++ v).data := by
    rw [data_append_mem]
    rintro (hc | hc)
    · rcases joinAll_chars _ _ hc with ⟨x, hx, hcx⟩
      rcases List.mem_map.mp hx with ⟨t, ht, rfl⟩
      rw [data_append_mem] at hcx
      rcases hcx with hcx | hcx
      · exact (identOk_chars (hts t ht) _ hcx).1 rfl
      · revert hcx; decide
    · exact hv.2.1 _ hc rfl
  cases ts with
  | nil =>
    have hdata : (joinAll (([] : List AssignTarget).map fun t =>
        targetText t ++ " = ") ++ v).data = v.data := by
      simp only [List.map_nil, joinAll, String.data_append]
      rfl
    refine ⟨?_, ?_, hnl⟩
    · intro heq
      rw [string_eq_empty_iff] at heq
      rw [hdata] at heq
      exact hv.1 (by rw [string_eq_empty_iff]; exact heq)
    · rw [hdata]
      exact hv.2.2.1
  | cons t ts =>
    have hne := identOk_ne (hts t (by simp))
    rcases hd : (targetText t).data with _ | ⟨c, cs⟩
    · exact absurd (by rw [string_eq_empty_iff, hd]) hne
    have hc : c ≠ ' ' := by
      have hmem : c ∈ (targetText t).data := by rw [hd]; simp
      exact (identOk_chars (hts t (by simp)) _ hmem).2.2
    have hdata : (joinAll ((t :: ts).map fun t => targetText t ++ " = ") ++ v).data =
        c :: (cs ++ " = ".data ++
          (joinAll (ts.map fun t => targetText t ++ " = ")).data ++ v.data) := by

      show ((targetText t ++ " = ") ++
        joinAll (ts.map fun t => targetText t ++ " = ") ++ v).data = _
      simp [String.data_append, hd]
    exact lineTextOk_of_data _ _ hdata hc (hdata ▸ hnl)

theorem importFrom_no_colon (lvl : Nat) (M : String) (ns : List String)
    (hM : ∀ c ∈ M.data, c ≠ ':') (hns : ∀ nm ∈ ns, identOk nm = true) :
    endsWithColon ("from " ++ dotsOf lvl ++ M ++ " import " ++ commaSep ns) = false := by
  apply endsWithColon_false_of_no_colon
  have hdata : ("from " ++ dotsOf lvl ++ M ++ " import " ++ commaSep ns).data =
      "from ".data ++ List.replicate lvl '.' ++ M.data ++
        " import ".data ++ (commaSep ns).data := by
    simp only [String.data_append, dotsOf]
  rw [hdata]
  intro hc
  simp only [List.mem_append] at hc
  rcases hc with (((hc | hc) | hc) | hc) | hc
  · revert hc; decide
  · exact absurd (List.eq_of_mem_replicate hc) (by decide)
  · exact hM _ hc rfl
  · revert hc; decide
  · rcases commaSep_chars ns _ hc with ⟨nm, hnm, hcnm⟩ | hc
    · exact (identOk_chars (hns nm hnm) _ hcnm).2.1 rfl
    · rcases hc with hc | hc <;> cases hc

theorem imp_no_colon (ns : List String)
    (hns : ∀ nm ∈ ns, identOk nm = true) :
    endsWithColon ("import " ++ commaSep ns) = false := by
  apply endsWithColon_false_of_no_colon
  rw [String.data_append]
  intro hc
  rcases List.mem_append.mp hc with hc | hc
  · revert hc; decide
  · rcases commaSep_chars ns _ hc with ⟨nm, hnm, hcnm⟩ | hc
    · exact (identOk_chars (hns nm hnm) _ hcnm).2.1 rfl
    · rcases hc with hc | hc <;> cases hc

theorem assign_no_colon (ts : List AssignTarget) (v : String)
    (hv : exprOk v = true) :
    endsWithColon (joinAll (ts.map fun t => targetText t ++ " = ") ++ v) = false := by
  have hp := exprOk_parts hv
  have hvne : v.data ≠ [] := by
    intro hc
    exact hp.1 (by rw [string_eq_empty_iff]; exact hc)
  apply endsWithColon_false_of_last_ne
  rw [String.data_append, List.getLast?_append_of_ne_nil _ hvne]
  exact hp.2.2.2

theorem unparseStmt_cons (s : Stmt) (n : Nat) :
    ∃ str tl, unparseStmt n s = (n, str) :: tl := by
  cases s <;> exact ⟨_, _, rfl⟩

theorem joinChar_ne_nil (sep : Char) (x : List Char) (xs : List (List Char))
    (hx : x ≠ []) : joinChar sep (x :: xs) ≠ [] := by
  cases xs with
  | nil => simpa [joinChar] using hx
  | cons y ys =>
    show x ++ sep :: joinChar sep (y :: ys) ≠ []
    simp

/-- Every line generated by unparsing a well-formed body is renderable
and re-parseable. -/
theorem unparseBody_lines_ok : ∀ (N : Nat) (L : List Stmt), stmtsSize L ≤ N →
    (∀ x, (∃ t ∈ L, Occ x t) → stmtTextOk x = true) →
    ∀ (n : Nat), ∀ l ∈ unparseBody n L, lineTextOk l.2 := by
  intro N
  induction N with
  | zero =>
    intro L hsize _ n l hl
    cases L with
    | nil => cases hl
    | cons s r =>
      exfalso
      have := stmtSize_pos s
      simp only [stmtsSize] at hsize
      omega
  | succ N ih =>
    intro L hsize hocc n l hl
    cases L with
    | nil => cases hl
    | cons s r =>
      have hs := hocc s ⟨s, by simp, Occ.refl s⟩
      have hsize_r : stmtsSize r ≤ N := by
        have := stmtSize_pos s
        simp only [stmtsSize] at hsize
        omega
      rw [unparseBody] at hl
      rcases List.mem_append.mp hl with hl | hl
      · cases s with
        | importFrom lvl m ns =>
          simp only [unparseStmt, List.mem_singleton] at hl
          subst hl
          simp only [stmtTextOk, Bool.and_eq_true, List.all_eq_true] at hs
          cases m with
          | none =>
            exact importFrom_line_ok lvl "" ns (fun c hc => by cases hc)
              (fun nm hnm => hs.2 nm hnm)
          | some ms =>
            exact importFrom_line_ok lvl ms ns
              (fun c hc => (identOk_chars hs.1 c hc).1)
              (fun nm hnm => hs.2 nm hnm)
        | imp ns =>
          simp only [unparseStmt, List.mem_singleton] at hl
          subst hl
          simp only [stmtTextOk, List.all_eq_true] at hs
          exact imp_line_ok ns hs
        | classDef nm b =>
          simp only [unparseStmt, List.mem_cons] at hl
          rcases hl with rfl | hl
          · exact class_header_line_ok nm (by simpa [stmtTextOk] using hs)
          · refine ih b ?_ ?_ (n + 1) l hl
            · simp only [stmtsSize, stmtSize] at hsize ⊢
              omega
            · rintro x ⟨t, ht, hocc2⟩
              exact hocc x ⟨.classDef nm b, by simp,
                Occ.child (by simpa [childrenOf] using ht) hocc2⟩
        | funcDef nm b =>
          simp only [unparseStmt, List.mem_cons] at hl
          rcases hl with rfl | hl
          · exact def_header_line_ok nm (by simpa [stmtTextOk] using hs)
          · refine ih b ?_ ?_ (n + 1) l hl
            · simp only [stmtsSize, stmtSize] at hsize ⊢
              omega
            · rintro x ⟨t, ht, hocc2⟩
              exact hocc x ⟨.funcDef nm b, by simp,
                Occ.child (by simpa [childrenOf] using ht) hocc2⟩
        | assign ts v =>
          simp only [unparseStmt, List.mem_singleton] at hl
          subst hl
          simp only [stmtTextOk, Bool.and_eq_true, List.all_eq_true] at hs
          exact assign_line_ok ts v hs.1 hs.2
        | exprStmt str =>
          simp only [unparseStmt, List.mem_singleton] at hl
          subst hl
          exact exprStmt_line_ok str (by simpa [stmtTextOk] using hs)
      · refine ih r hsize_r ?_ n l hl
        rintro x ⟨t, ht, hocc2⟩
        exact hocc x ⟨t, by simp [ht], hocc2⟩

/-- The checker accepts the unparse of any tree whose compound bodies
are nonempty and whose embedded strings are line-printable: one
statement at its own indentation, blocks one level deeper. -/
theorem chk_accept : ∀ (N : Nat),
    (∀ (s : Stmt), stmtSize s ≤ N →
      (∀ x, Occ x s → stmtTextOk x = true ∧ compoundNonempty x = true) →
      ∀ (n f : Nat) (rest : List (Nat × String)), costS s ≤ f →
      (rest = [] ∨ ∃ i str t, rest = (i, str) :: t ∧ i ≤ n) →
      chkStmtF f n (unparseStmt n s ++ rest) = some rest) ∧
    (∀ (L : List Stmt), stmtsSize L ≤ N → L ≠ [] →
      (∀ x, (∃ t ∈ L, Occ x t) → stmtTextOk x = true ∧ compoundNonempty x = true) →
      ∀ (n f : Nat) (rest : List (Nat × String)), costL L ≤ f →
      (rest = [] ∨ ∃ i str t, rest = (i, str) :: t ∧ i < n) →
      chkBlockF f n (unparseBody n L ++ rest) = some rest) := by
  intro N
  induction N with
  | zero =>
    constructor
    · intro s hsize
      exfalso
      have := stmtSize_pos s
      omega
    · intro L hsize hne
      exfalso
      cases L with
      | nil => exact hne rfl
      | cons s r =>
        have := stmtSize_pos s
        simp only [stmtsSize] at hsize
        omega
  | succ N ih =>
    have hS : ∀ (s : Stmt), stmtSize s ≤ N + 1 →
        (∀ x, Occ x s → stmtTextOk x = true ∧ compoundNonempty x = true) →
        ∀ (n f : Nat) (rest : List (Nat × String)), costS s ≤ f →
        (rest = [] ∨ ∃ i str t, rest = (i, str) :: t ∧ i ≤ n) →
        chkStmtF f n (unparseStmt n s ++ rest) = some rest := by
      intro s hsize hocc n f rest hcost hrest
      have hself := hocc s (Occ.refl s)
      obtain ⟨f, rfl⟩ : ∃ g, f = g + 1 := by
        have : 1 ≤ costS s := by cases s <;> simp [costS]
        exact ⟨f - 1, by omega⟩
      cases s with
      | importFrom lvl m ns =>
        have hts := hself.1
        cases m with
        | none =>
          simp only [stmtTextOk, Bool.and_eq_true, List.all_eq_true] at hts
          have hcolon := importFrom_no_colon lvl "" ns
            (fun c hc => by cases hc) hts.2
          simp only [String.append_empty] at hcolon
          simp [unparseStmt, chkStmtF, hcolon]
        | some ms =>
          simp only [stmtTextOk, Bool.and_eq_true, List.all_eq_true] at hts
          have hcolon := importFrom_no_colon lvl ms ns
            (fun c hc => (identOk_chars hts.1 c hc).2.1) hts.2
          simp [unparseStmt, chkStmtF, hcolon]
      | imp ns =>
        have hts := hself.1
        simp only [stmtTextOk, List.all_eq_true] at hts
        simp [unparseStmt, chkStmtF, imp_no_colon ns hts]
      | assign ts v =>
        have hts := hself.1
        simp only [stmtTextOk, Bool.and_eq_true, List.all_eq_true] at hts
        simp [unparseStmt, chkStmtF, assign_no_colon ts v hts.2]
      | exprStmt str =>
        have hts := hself.1
        simp only [stmtTextOk] at hts
        have := (exprOk_parts hts).2.2.2
        simp [unparseStmt, chkStmtF, endsWithColon_false_of_last_ne str this]
      | classDef nm b =>
        have hbne : b ≠ [] := by
          have := hself.2
          simp only [compoundNonempty, Bool.not_eq_true'] at this
          simpa [List.isEmpty_iff] using this
        have hcost2 : costL b ≤ f := by
          simp only [costS] at hcost
          omega
        have hsize2 : stmtsSize b ≤ N := by
          simp only [stmtSize] at hsize
          omega
        have hblock := ih.2 b hsize2 hbne
          (by
            rintro x ⟨t, ht, hocc2⟩
            exact hocc x (Occ.child (by simpa [childrenOf] using ht) hocc2))
          (n + 1) f rest hcost2
          (by
            rcases hrest with rfl | ⟨i, str, t, rfl, hi⟩
            · exact Or.inl rfl
            · exact Or.inr ⟨i, str, t, rfl, by omega⟩)
        have hhdr : endsWithColon ("class " ++ nm ++ ":") = true :=
          endsWithColon_concat ("class " ++ nm)
        simp only [unparseStmt, List.cons_append, chkStmtF, if_pos rfl, hhdr,
          if_true]
        exact hblock
      | funcDef nm b =>
        have hbne : b ≠ [] := by
          have := hself.2
          simp only [compoundNonempty, Bool.not_eq_true'] at this
          simpa [List.isEmpty_iff] using this
        have hcost2 : costL b ≤ f := by
          simp only [costS] at hcost
          omega
        have hsize2 : stmtsSize b ≤ N := by
          simp only [stmtSize] at hsize
          omega
        have hblock := ih.2 b hsize2 hbne
          (by
            rintro x ⟨t, ht, hocc2⟩
            exact hocc x (Occ.child (by simpa [childrenOf] using ht) hocc2))
          (n + 1) f rest hcost2
          (by
            rcases hrest with rfl | ⟨i, str, t, rfl, hi⟩
            · exact Or.inl rfl
            · exact Or.inr ⟨i, str, t, rfl, by omega⟩)
        have hhdr : endsWithColon ("def " ++ nm ++ "():") = true := by
          have : "def " ++ nm ++ "():" = ("def " ++ nm ++ "()") ++ ":" := by
            simp [String.append_assoc]
          rw [this]
          exact endsWithColon_concat _
        simp only [unparseStmt, List.cons_append, chkStmtF, if_pos rfl, hhdr,
          if_true]
        exact hblock
    refine ⟨hS, ?_⟩
    intro L hsize hne hocc n f rest hcost hrest
    cases L with
    | nil => exact absurd rfl hne
    | cons b₁ r =>
      have hsize1 : stmtSize b₁ ≤ N + 1 := by
        have := stmtsSize_append [b₁] r
        simp only [stmtsSize] at hsize ⊢
        omega
      obtain ⟨f, rfl⟩ : ∃ g, f = g + 1 := by
        have h1 : 1 ≤ costS b₁ := by cases b₁ <;> simp [costS]
        simp only [costL] at hcost
        exact ⟨f - 1, by omega⟩
      have hcost1 : costS b₁ ≤ f := by
        simp only [costL] at hcost
        omega
      have hocc1 : ∀ x, Occ x b₁ → stmtTextOk x = true ∧ compoundNonempty x = true :=
        fun x hx => hocc x ⟨b₁, by simp, hx⟩
      have happ : unparseBody n (b₁ :: r) ++ rest =
          unparseStmt n b₁ ++ (unparseBody n r ++ rest) := by
        rw [unparseBody, List.append_assoc]
      cases r with
      | nil =>
        have hstmt := hS b₁ hsize1 hocc1 n f rest hcost1
          (by
            rcases hrest with rfl | ⟨i, str, t, rfl, hi⟩
            · exact Or.inl rfl
            · exact Or.inr ⟨i, str, t, rfl, by omega⟩)
        rw [happ]
        simp only [unparseBody, List.nil_append]
        rw [chkBlockF, hstmt]
        rcases hrest with rfl | ⟨i, str, t, rfl, hi⟩
        · rfl
        · simp [Nat.ne_of_lt hi]
      | cons b₂ r₂ =>
        have hstmt := hS b₁ hsize1 hocc1 n f (unparseBody n (b₂ :: r₂) ++ rest)
          hcost1
          (by
            right
            obtain ⟨str, tl, hb₂⟩ := unparseStmt_cons b₂ n
            refine ⟨n, str, tl ++ (unparseBody n r₂ ++ rest), ?_, le_rfl⟩
            rw [unparseBody, hb₂]
            simp)
        have hsize2 : stmtsSize (b₂ :: r₂) ≤ N := by
          have h1 := stmtSize_pos b₁
          simp only [stmtsSize] at hsize ⊢
          omega
        have hcost2 : costL (b₂ :: r₂) ≤ f := by
          simp only [costL] at hcost ⊢
          omega
        have hblock := ih.2 (b₂ :: r₂) hsize2 (by simp)
          (by
            rintro x ⟨t, ht, hocc2⟩
            exact hocc x ⟨t, by simp [List.mem_cons.mp ht], hocc2⟩)
          n f rest hcost2 hrest
        rw [happ, chkBlockF, hstmt]
        obtain ⟨str, tl, hb₂⟩ := unparseStmt_cons b₂ n
        have hshape : unparseBody n (b₂ :: r₂) ++ rest =
            (n, str) :: (tl ++ (unparseBody n r₂ ++ rest)) := by
          rw [unparseBody, hb₂]
          simp
        rw [hshape]
        simp only [if_pos rfl]
        rw [← hshape]
        exact hblock

theorem cost_le_len : ∀ (N : Nat),
    (∀ (s : Stmt), stmtSize s ≤ N → ∀ n,
      costS s + 1 ≤ 2 * (unparseStmt n s).length) ∧
    (∀ (L : List Stmt), stmtsSize L ≤ N → ∀ n,
      costL L ≤ 2 * (unparseBody n L).length) := by
  intro N
  induction N with
  | zero =>
    constructor
    · intro s hsize
      exfalso
      have := stmtSize_pos s
      omega
    · intro L hsize n
      cases L with
      | nil => simp [costL]
      | cons s r =>
        exfalso
        have := stmtSize_pos s
        simp only [stmtsSize] at hsize
        omega
  | succ N ih =>
    have hS : ∀ (s : Stmt), stmtSize s ≤ N + 1 → ∀ n,
        costS s + 1 ≤ 2 * (unparseStmt n s).length := by
      intro s hsize n
      cases s with
      | classDef nm b =>
        have hb := ih.2 b (by simp only [stmtSize] at hsize; omega) (n + 1)
        simp only [costS, unparseStmt, List.length_cons]
        omega
      | funcDef nm b =>
        have hb := ih.2 b (by simp only [stmtSize] at hsize; omega) (n + 1)
        simp only [costS, unparseStmt, List.length_cons]
        omega
      | importFrom lvl m ns => simp [costS, unparseStmt]
      | imp ns => simp [costS, unparseStmt]
      | assign ts v => simp [costS, unparseStmt]
      | exprStmt str => simp [costS, unparseStmt]
    refine ⟨hS, ?_⟩
    intro L hsize n
    cases L with
    | nil => simp [costL]
    | cons s r =>
      have h1 := hS s (by
        simp only [stmtsSize] at hsize
        have := stmtSize_pos s
        omega) n
      have h2 := ih.2 r (by
        simp only [stmtsSize] at hsize
        have := stmtSize_pos s
        omega) n
      simp only [costL, unparseBody, List.length_append]
      omega

/-- Round trip: the unparse of a tree with nonempty compound bodies and
line-printable strings is accepted by the re-parser. -/
theorem reparses_unparseModule (m : PyModule)
    (hwf : ∀ x, (∃ t ∈ m.body, Occ x t) →
      stmtTextOk x = true ∧ compoundNonempty x = true) :
    reparses (unparseModule m) = true := by
  cases hb : m.body with
  | nil =>
    rw [unparseModule, hb]
    rfl
  | cons s r =>
    set ls := unparseBody 0 m.body with hls
    have hlsne : ls ≠ [] := by
      rw [hls, hb, unparseBody]
      obtain ⟨str, tl, hcons⟩ := unparseStmt_cons s 0
      rw [hcons]
      simp
    have hlines : ∀ l ∈ ls, lineTextOk l.2 := by
      intro l hl
      exact unparseBody_lines_ok (stmtsSize m.body) m.body le_rfl
        (fun x hx => (hwf x hx).1) 0 l hl
    have htext : unparseModule m ≠ "" := by
      rw [unparseModule, ← hls]
      intro heq
      rw [string_eq_empty_iff, renderLines, joinSegs] at heq
      cases hlsc : ls with
      | nil => exact absurd hlsc hlsne
      | cons l₀ ls₀ =>
        have hl₀ := hlines l₀ (by rw [hlsc]; simp)
        have hl₀ne : (renderLine l₀).data ≠ [] := by
          rw [renderLine_data]
          intro hc
          rcases List.append_eq_nil.mp hc with ⟨_, h2⟩
          exact hl₀.1 (by rw [string_eq_empty_iff]; exact h2)
        rw [hlsc] at heq
        simp only [List.map_cons] at heq
        exact joinChar_ne_nil '\n' _ _ hl₀ne heq
    have hparse : parseLines (unparseModule m) = some ls := by
      rw [unparseModule, ← hls]
      exact parseLines_render ls hlsne
        (fun l hl => ⟨(hlines l hl).1, (hlines l hl).2.1, (hlines l hl).2.2⟩)
    have hchk : chkBlockF (2 * ls.length + 2) 0 ls = some [] := by
      have hcost := (cost_le_len (stmtsSize m.body)).2 m.body le_rfl 0
      have := (chk_accept (stmtsSize m.body)).2 m.body le_rfl
        (by rw [hb]; simp) hwf 0 (2 * ls.length + 2) []
        (by rw [← hls] at hcost; omega) (Or.inl rfl)
      simpa using this
    rw [reparses, if_neg htext, hparse]
    simp [hchk]

theorem Occ_trans : ∀ {x y z : Stmt}, Occ x y → Occ y z → Occ x z := by
  intro x y z hxy hyz
  induction hyz with
  | refl => exact hxy
  | child hu _ ih => exact Occ.child hu ih

theorem children_prune (t : Stmt) :
    childrenOf (pruneStmt t) = pruneStmts (childrenOf t) := by
  cases t <;> simp [pruneStmt, childrenOf, pruneStmts]

/-- Everything occurring in a pruned statement is the prune of something
occurring in the original; strict descendants moreover survived the
filter, so they are unmatched. -/
theorem occ_prune : ∀ (x t' : Stmt), Occ x t' → ∀ t, t' = pruneStmt t →
    ∃ y, Occ y t ∧ x = pruneStmt y ∧ (y = t ∨ shouldRemove y = false) := by
  intro x t' hocc
  induction hocc with
  | refl => exact fun t ht => ⟨t, Occ.refl t, ht, Or.inl rfl⟩
  | child hu _ ih =>
    rintro t rfl
    rw [children_prune] at hu
    rcases (mem_pruneStmts _ _).mp hu with ⟨u₀, hu₀, hu₀rem, rfl⟩
    rcases ih u₀ rfl with ⟨y, hy, rfl, hyrem⟩
    refine ⟨y, Occ.child hu₀ hy, rfl, Or.inr ?_⟩
    rcases hyrem with rfl | hyrem
    · exact hu₀rem
    · exact hyrem

theorem stmtTextOk_prune (y : Stmt) :
    stmtTextOk (pruneStmt y) = stmtTextOk y := by
  cases y <;> simp [pruneStmt, stmtTextOk]

theorem pySplitChar_chars : ∀ (sep : Char) (l : List Char) (seg : List Char),
    seg ∈ pySplitChar sep l → ∀ c ∈ seg, c ∈ l := by
  intro sep l
  induction l with
  | nil =>
    intro seg hseg c hc
    simp only [pySplitChar, List.mem_singleton] at hseg
    subst hseg
    cases hc
  | cons a as ih =>
    intro seg hseg c hc
    rw [pySplitChar] at hseg
    cases hsplit : pySplitChar sep as with
    | nil => exact absurd hsplit (pySplitChar_ne_nil sep as)
    | cons h t =>
      rw [hsplit] at hseg
      dsimp only at hseg
      by_cases ha : a = sep
      · rw [if_pos ha] at hseg
        rcases List.mem_cons.mp hseg with rfl | hseg
        · cases hc
        · exact List.mem_cons_of_mem a (ih seg (by rw [hsplit]; exact hseg) c hc)
      · rw [if_neg ha] at hseg
        rcases List.mem_cons.mp hseg with rfl | hseg
        · rcases List.mem_cons.mp hc with rfl | hc
          · simp
          · exact List.mem_cons_of_mem a
              (ih h (by rw [hsplit]; simp) c hc)
        · exact List.mem_cons_of_mem a
            (ih seg (by rw [hsplit]; simp [hseg]) c hc)

theorem lastSeg_mem : ∀ (L : List String), L ≠ [] → lastSeg L ∈ L := by
  intro L
  induction L with
  | nil => intro h; exact absurd rfl h
  | cons s r ih =>
    intro _
    cases r with
    | nil => simp [lastSeg]
    | cons s₂ r₂ =>
      have : lastSeg (s :: s₂ :: r₂) = lastSeg (s₂ :: r₂) := rfl
      rw [this]
      exact List.mem_cons_of_mem s (ih (by simp))

theorem identOk_convert {mm : String} (h : identOk mm = true) :
    identOk (convert_to_relative_import mm) = true := by
  have hchars : ∀ c ∈ (lastSeg (pySplit '.' mm)).data, c ∈ mm.data := by
    intro c hc
    have hmem : lastSeg (pySplit '.' mm) ∈ pySplit '.' mm :=
      lastSeg_mem _ (by
        rw [pySplit]
        intro hcontra
        exact pySplitChar_ne_nil '.' mm.data (by simpa using hcontra))
    rw [pySplit] at hmem
    rcases List.mem_map.mp hmem with ⟨seg, hseg, hmk⟩
    have hdataseg : (lastSeg (pySplit '.' mm)).data = seg := by
      rw [pySplit, ← hmk]
    rw [hdataseg] at hc
    exact pySplitChar_chars '.' mm.data seg hseg c hc
  have hdata := convert_data mm
  simp only [identOk, Bool.and_eq_true]
  constructor
  · rw [Bool.not_eq_true', decide_eq_false_iff_not]
    intro hcontra
    rw [string_eq_empty_iff, hdata] at hcontra
    cases hcontra
  · rw [List.all_eq_true]
    intro c hc
    rw [hdata] at hc
    rcases List.mem_cons.mp hc with rfl | hc
    · decide
    · have := identOk_chars h c (hchars c hc)
      simp [this.1, this.2.1, this.2.2]

theorem stmtTextOk_rewrite {y : Stmt} (h : stmtTextOk y = true) :
    stmtTextOk (rewriteStmt y) = true := by
  cases y with
  | importFrom lvl m ns =>
    cases m with
    | none => exact h
    | some ms =>
      by_cases hllm : pyStartsWith ms "llmfoundry" = true
      · rw [rewriteStmt, if_pos hllm]
        simp only [stmtTextOk, Bool.and_eq_true] at h ⊢
        exact ⟨identOk_convert h.1, h.2⟩
      · rw [rewriteStmt, if_neg hllm]
        exact h
  | imp ns => exact h
  | classDef nm b => simpa [rewriteStmt, stmtTextOk] using h
  | funcDef nm b => simpa [rewriteStmt, stmtTextOk] using h
  | assign ts v => exact h
  | exprStmt str => exact h

theorem rewriteStmts_length (L : List Stmt) :
    (rewriteStmts L).length = L.length := by
  rw [rewriteStmts_eq_map, List.length_map]

theorem below_no_match {body : List Stmt}
    (hclean : ∀ t ∈ body, ∀ w ∈ childrenOf t, ∀ x, Occ x w → shouldRemove x = false)
    {t₀ y₀ : Stmt} (ht₀ : t₀ ∈ body) (hy₀ : Occ y₀ t₀) :
    ∀ z, (∃ u ∈ childrenOf y₀, Occ z u) → shouldRemove z = false := by
  rintro z ⟨u, hu, hz⟩
  cases hy₀ with
  | refl => exact hclean t₀ ht₀ u hu z hz
  | child hw how =>
    exact hclean t₀ ht₀ _ hw z (Occ_trans (Occ.child hu hz) how)

/-- Decomposition of the transformed tree's occurrences: everything in
the output is the prune-rewrite image of an occurrence of the input. -/
theorem processed_occ_shape {resolve : String → String} {m out : PyModule}
    {ds : List String} (hok : processModule resolve m = .ok (out, ds)) :
    ∀ x, (∃ t ∈ out.body, Occ x t) →
      ∃ y₀ t₀, t₀ ∈ m.body ∧ Occ y₀ t₀ ∧
        shouldRemove (rewriteStmt y₀) = false ∧
        x = pruneStmt (rewriteStmt y₀) := by
  have hbody := (processModule_ok resolve m out ds hok).1
  rintro x ⟨t, ht, hocc⟩
  rw [hbody] at ht
  rcases (mem_pruneStmts _ _).mp ht with ⟨t₁, ht₁, hrem₁, rfl⟩
  rw [rewriteStmts_eq_map] at ht₁
  rcases List.mem_map.mp ht₁ with ⟨t₀, ht₀, rfl⟩
  rcases occ_prune x _ hocc _ rfl with ⟨y₁, hy₁, rfl, hy₁rem⟩
  have hy₁rem2 : shouldRemove y₁ = false := by
    rcases hy₁rem with rfl | h
    · exact hrem₁
    · exact h
  rcases occ_rewrite y₁ _ hy₁ _ rfl with ⟨y₀, hy₀, rfl⟩
  exact ⟨y₀, t₀, ht₀, hy₀, hy₁rem2, rfl⟩

/-- When removal matches occur only at module top level, every node of
the transformed tree inherits printability and nonempty bodies from the
input tree. -/
theorem processed_occ_ok {resolve : String → String} {m out : PyModule}
    {ds : List String} (hok : processModule resolve m = .ok (out, ds))
    (hclean : ∀ t ∈ m.body, ∀ w ∈ childrenOf t, ∀ x, Occ x w →
      shouldRemove x = false)
    (htext : ∀ x, (∃ t ∈ m.body, Occ x t) → stmtTextOk x = true)
    (hneb : ∀ x, (∃ t ∈ m.body, Occ x t) → compoundNonempty x = true) :
    ∀ x, (∃ t ∈ out.body, Occ x t) →
      stmtTextOk x = true ∧ compoundNonempty x = true := by
  intro x hx
  rcases processed_occ_shape hok x hx with ⟨y₀, t₀, ht₀, hy₀, hyrem, rfl⟩
  have hbm := below_no_match hclean ht₀ hy₀
  constructor
  · rw [stmtTextOk_prune]
    exact stmtTextOk_rewrite (htext y₀ ⟨t₀, ht₀, hy₀⟩)
  · have hbody_noop : ∀ (b : List Stmt), childrenOf y₀ = b →
        pruneStmts (rewriteStmts b) = rewriteStmts b := by
      rintro b rfl
      refine prune_noop_aux (stmtsSize (rewriteStmts (childrenOf y₀))) _ le_rfl ?_
      rintro z ⟨u, hu, hz⟩
      rw [rewriteStmts_eq_map] at hu
      rcases List.mem_map.mp hu with ⟨u₀, hu₀, rfl⟩
      rcases occ_rewrite z _ hz _ rfl with ⟨z₀, hz₀, rfl⟩
      rw [shouldRemove_rewriteStmt]
      exact hbm z₀ ⟨u₀, hu₀, hz₀⟩
    cases y₀ with
    | classDef nm b =>
      have hb := hbody_noop b (by simp [childrenOf])
      have hne : b ≠ [] := by
        have := hneb (.classDef nm b) ⟨t₀, ht₀, hy₀⟩
        simp only [compoundNonempty, Bool.not_eq_true'] at this
        simpa [List.isEmpty_iff] using this
      have e1 : pruneStmt (rewriteStmt (Stmt.classDef nm b)) =
          .classDef nm (pruneStmts (rewriteStmts b)) := rfl
      rw [e1, hb]
      simp [compoundNonempty, rewriteStmts_eq_map, List.isEmpty_iff, hne]
    | funcDef nm b =>
      have hb := hbody_noop b (by simp [childrenOf])
      have hne : b ≠ [] := by
        have := hneb (.funcDef nm b) ⟨t₀, ht₀, hy₀⟩
        simp only [compoundNonempty, Bool.not_eq_true'] at this
        simpa [List.isEmpty_iff] using this
      have e1 : pruneStmt (rewriteStmt (Stmt.funcDef nm b)) =
          .funcDef nm (pruneStmts (rewriteStmts b)) := rfl
      rw [e1, hb]
      simp [compoundNonempty, rewriteStmts_eq_map, List.isEmpty_iff, hne]
    | importFrom lvl mo ns =>
      cases mo with
      | none => simp [rewriteStmt, pruneStmt, compoundNonempty]
      | some ms =>
        by_cases hllm : pyStartsWith ms "llmfoundry" = true <;>
          simp [rewriteStmt, pruneStmt, compoundNonempty, hllm]
    | imp ns => simp [rewriteStmt, pruneStmt, compoundNonempty]
    | assign ts v => simp [rewriteStmt, pruneStmt, compoundNonempty]
    | exprStmt str => simp [rewriteStmt, pruneStmt, compoundNonempty]

/-! ## Splitting a path built from slash-free segments -/

theorem pySplit_joinSegs (sep : Char) (segs : List String) (hne : segs ≠ [])
    (hsep : ∀ s ∈ segs, sep ∉ s.data) :
    pySplit sep (joinSegs sep segs) = segs := by
  rw [pySplit, joinSegs]
  have hne2 : segs.map String.data ≠ [] := by simp [hne]
  have hsep2 : ∀ seg ∈ segs.map String.data, sep ∉ seg := by
    intro seg hseg
    rcases List.mem_map.mp hseg with ⟨s, hs, rfl⟩
    exact hsep s hs
  have hd : (String.mk (joinChar sep (segs.map String.data))).data
      = joinChar sep (segs.map String.data) := rfl
  rw [hd, pySplitChar_joinChar sep _ hne2 hsep2, List.map_map]
  have hid : ∀ x ∈ segs, (String.mk ∘ String.data) x = x := fun x _ => rfl
  rw [List.map_congr_left hid, List.map_id']

theorem lastSeg_append_pair : ∀ (l : List String) (a b : String),
    lastSeg (l ++ [a, b]) = b := by
  intro l
  induction l with
  | nil => intro a b; rfl
  | cons d rest ih =>
    intro a b
    obtain ⟨h, t, heq⟩ : ∃ h t, rest ++ [a, b] = h :: t := by
      cases rest <;> exact ⟨_, _, rfl⟩
    show lastSeg (d :: (rest ++ [a, b])) = b
    rw [heq]
    have hstep : lastSeg (d :: h :: t) = lastSeg (h :: t) := rfl
    rw [hstep, ← heq]
    exact ih a b

theorem sndLastSeg_append_pair : ∀ (l : List String) (a b : String),
    sndLastSeg (l ++ [a, b]) = a := by
  intro l
  induction l with
  | nil => intro a b; rfl
  | cons d rest ih =>
    intro a b
    obtain ⟨h, h₂, t₂, heq⟩ : ∃ h h₂ t₂, rest ++ [a, b] = h :: h₂ :: t₂ := by
      cases rest with
      | nil => exact ⟨a, b, [], rfl⟩
      | cons d₂ r₂ =>
        obtain ⟨x, y, hxy⟩ : ∃ x y, r₂ ++ [a, b] = x :: y := by
          cases r₂ <;> exact ⟨_, _, rfl⟩
        exact ⟨d₂, x, y, by rw [List.cons_append, hxy]⟩
    show sndLastSeg (d :: (rest ++ [a, b])) = a
    rw [heq]
    have hstep : sndLastSeg (d :: h :: h₂ :: t₂) = sndLastSeg (h :: h₂ :: t₂) := rfl
    rw [hstep, ← heq]
    exact ih a b

/-! ## The claims -/

/-- C1, counterexample: the claim says no import of an excluded module
survives in the output "regardless of the import's syntactic form", but
a plain `import composer` statement (an `ast.Import` node, not an
`ast.ImportFrom`) is not matched by the `elif`-chain of `process_file`
and survives verbatim into the emitted text, though its module name is
classified excluded. -/
theorem c1_counterexample :
    processModule (fun s => s) ⟨[Stmt.imp ["composer"]]⟩ =
      Except.ok (⟨[Stmt.imp ["composer"]]⟩, []) ∧
    unparseModule ⟨[Stmt.imp ["composer"]]⟩ = "import composer" ∧
    classifyModule "composer" = ImportKind.excluded :=
  ⟨rfl, rfl, rfl⟩

/-- C1, amended: after a successful `process_file` transformation no
`ImportFrom` whose module matches an excluded prefix (`composer` /
`omegaconf`) survives anywhere in the output tree; plain `import`
statements are outside the deletion pass. -/
theorem c1_no_excluded_from_import (resolve : String → String)
    (m out : PyModule) (ds : List String)
    (h : processModule resolve m = .ok (out, ds)) :
    ∀ x ∈ walkStmts out.body, isExcludedImport x = false := by
  intro x hx
  rcases (walkStmts_mem out.body x).mp hx with ⟨t, ht, hocc⟩
  have hbody := (processModule_ok resolve m out ds h).1
  rw [hbody] at ht
  rcases (mem_pruneStmts _ _).mp ht with ⟨t₁, ht₁, hrem₁, rfl⟩
  rw [rewriteStmts_eq_map] at ht₁
  rcases List.mem_map.mp ht₁ with ⟨t₀, _, rfl⟩
  exact occ_processed_not_excluded x _ hocc t₀ rfl hrem₁

/-- C1, witness: the amended theorem at a module holding one excluded
from-import and one plain statement. -/
theorem c1_no_excluded_from_import_witness :
    isExcludedImport (Stmt.exprStmt "x = 1") = false :=
  c1_no_excluded_from_import (fun s => s)
    ⟨[Stmt.importFrom 0 (some "composer.utils") ["gf"], Stmt.exprStmt "x = 1"]⟩
    ⟨[Stmt.exprStmt "x = 1"]⟩ [] rfl (Stmt.exprStmt "x = 1") (by decide)

/-- C2: the emitted name of a processed file whose path has at least a
parent directory: a basename `__init__.py` becomes the parent
directory's name with the `.py` extension, any other basename is kept;
either way the output path is directly inside the flat output folder. -/
theorem c2_output_naming (folder : String) (ds : List String)
    (parent leaf : String)
    (hds : ∀ d ∈ ds, ('/' : Char) ∉ d.data)
    (hparent : ('/' : Char) ∉ parent.data)
    (hleaf : ('/' : Char) ∉ leaf.data) :
    outName (joinSegs '/' (ds ++ [parent, leaf])) =
      (if leaf = "__init__.py" then parent ++ ".py" else leaf) ∧
    newFilePath folder (joinSegs '/' (ds ++ [parent, leaf])) =
      folder ++ "/" ++ outName (joinSegs '/' (ds ++ [parent, leaf])) := by
  have hsplit : pySplit '/' (joinSegs '/' (ds ++ [parent, leaf])) =
      ds ++ [parent, leaf] := by
    refine pySplit_joinSegs '/' _ (by simp) ?_
    intro s hs
    rcases List.mem_append.mp hs with hs | hs
    · exact hds s hs
    · rcases List.mem_cons.mp hs with rfl | hs
      · exact hparent
      · rcases List.mem_cons.mp hs with rfl | hs
        · exact hleaf
        · cases hs
  constructor
  · simp only [outName, basename, hsplit, lastSeg_append_pair,
      sndLastSeg_append_pair]
  · rfl

/-- C2, witness: a package-index file and an ordinary file under
concrete paths. -/
theorem c2_output_naming_witness :
    outName "root/pkg/mod/__init__.py" = "mod.py" ∧
    newFilePath "hf_out" "root/pkg/mod/__init__.py" = "hf_out/mod.py" ∧
    outName "root/pkg/attention.py" = "attention.py" := by
  have h1 := c2_output_naming "hf_out" ["root", "pkg"] "mod" "__init__.py"
    (by decide) (by decide) (by decide)
  have h2 := c2_output_naming "hf_out" ["root"] "pkg" "attention.py"
    (by decide) (by decide) (by decide)
  have e1 : joinSegs '/' (["root", "pkg"] ++ ["mod", "__init__.py"]) =
      "root/pkg/mod/__init__.py" := rfl
  have e2 : joinSegs '/' (["root"] ++ ["pkg", "attention.py"]) =
      "root/pkg/attention.py" := rfl
  rw [e1] at h1
  rw [e2] at h2
  refine ⟨?_, ?_, ?_⟩
  · rw [h1.1]; rfl
  · rw [h1.2, h1.1]; rfl
  · rw [h2.1]; rfl

/-- C3: on every reachable state of the drain loop the `seen` set and
the enqueue history are duplicate-free and everything ever enqueued is
in `seen`; every dependency of a processed path made it into `seen`;
and once the worklist has drained, every valid seen path was emitted
exactly once. -/
theorem c3_single_processing (valid : String → Bool)
    (deps : String → List String) (seeds : List String) (st : WLState)
    (hnd : seeds.Nodup) (hrun : WRun valid deps (initState seeds) st) :
    st.seen.Nodup ∧ st.enqueued.Nodup ∧
      (∀ p ∈ st.enqueued, p ∈ st.seen) ∧
      (∀ p ∈ st.popped, valid p = true → ∀ q ∈ deps p, q ∈ st.seen) ∧
      (st.pending = [] → ∀ p ∈ st.seen, valid p = true →
        st.emitted.count p = 1) := by
  have hinv := wrun_inv hrun (winv_init seeds hnd)
  refine ⟨hinv.seen_nd, hinv.enq_nd, fun p hp => (hinv.seen_enq p).mpr hp,
    fun p hp hv q hq => hinv.deps_seen p hp hv q hq, ?_⟩
  intro hdone p hp hv
  have hem : p ∈ st.emitted := by
    rw [hinv.emitted_eq, List.mem_filter]
    rcases hinv.seen_split p hp with hpop | hpend
    · exact ⟨hpop, by simp [hv]⟩
    · rw [hdone] at hpend
      cases hpend
  have hemnd : st.emitted.Nodup := by
    rw [hinv.emitted_eq]
    exact hinv.popped_nd.filter _
  exact List.count_eq_one_of_mem hemnd hem

/-- C3, witness: the drained singleton run. -/
theorem c3_single_processing_witness :
    (WLState.mk [] ["a.py"] ["a.py"] ["a.py"] ["a.py"]).seen.Nodup ∧
    (WLState.mk [] ["a.py"] ["a.py"] ["a.py"] ["a.py"]).emitted.count
      "a.py" = 1 := by
  have h := c3_single_processing (fun _ => true) (fun _ => []) ["a.py"]
    (WLState.mk [] ["a.py"] ["a.py"] ["a.py"] ["a.py"]) (by decide)
    (runLoop_wrun 1 (initState ["a.py"])
      (WLState.mk [] ["a.py"] ["a.py"] ["a.py"] ["a.py"]) rfl)
  exact ⟨h.1, h.2.2.2.2 rfl "a.py" (by decide) rfl⟩

/-- C4: termination — with fuel `seeds.length + U.card`, for any finite
`valid`-and-`deps`-closed universe `U` containing the seeds, the drain
loop empties the worklist. -/
theorem c4_termination (valid : String → Bool) (deps : String → List String)
    (seeds : List String) (U : Finset String)
    (hnd : seeds.Nodup) (hseeds : ∀ p ∈ seeds, p ∈ U)
    (hclosed : ∀ p ∈ U, valid p = true → ∀ q ∈ deps p, q ∈ U) :
    ∃ st, runLoop valid deps (seeds.length + U.card) (initState seeds) =
        some st ∧ st.pending = [] := by
  obtain ⟨st, hst⟩ := runLoop_terminates (seeds.length + U.card)
    (initState seeds) U (winv_init seeds hnd)
    (by simpa [initState] using hseeds) hclosed
    (by
      simp only [initState, List.length_reverse]
      omega)
  exact ⟨st, hst, runLoop_drained _ _ _ hst⟩

/-- C4, witness: a two-file universe with one dependency edge, cyclic
closure included, drains within the stated fuel. -/
theorem c4_termination_witness :
    (runLoop (fun _ => true) (fun p => if p == "a.py" then ["b.py"] else [])
      3 (initState ["a.py"])).isSome = true := by
  obtain ⟨st, hst, -⟩ := c4_termination (fun _ => true)
    (fun p => if p == "a.py" then ["b.py"] else []) ["a.py"]
    {"a.py", "b.py"} (by decide) (by decide) (by decide)
  have e : (["a.py"] : List String).length +
      ({"a.py", "b.py"} : Finset String).card = 3 := by decide
  rw [e] at hst
  rw [hst]
  rfl

/-- C5, counterexample: `composerx` is classified excluded and
`llmfoundryx` internal although neither matches any prefix on whole
dotted segments — the code matches by characters (`str.startswith`),
not by segments. -/
theorem c5_counterexample :
    classifyModule "composerx" = ImportKind.excluded ∧
    specSegMatch "composer" "composerx" = false ∧
    classifyModule "llmfoundryx" = ImportKind.internal ∧
    specSegMatch "llmfoundry" "llmfoundryx" = false := by
  refine ⟨rfl, by decide, rfl, by decide⟩

/-- C5, amended: classification is by character prefix.  It subsumes
the spec's whole-segment matching — every segment-match is classified
as the spec says — and a name matching none of the three character
prefixes is unrelated; but character extensions such as `composerx`
are also matched (see the counterexample). -/
theorem c5_prefix_classification :
    (∀ m : String, specSegMatch "llmfoundry" m = true →
      classifyModule m = ImportKind.internal) ∧
    (∀ m : String, specSegMatch "composer" m = true →
      classifyModule m = ImportKind.excluded) ∧
    (∀ m : String, specSegMatch "omegaconf" m = true →
      classifyModule m = ImportKind.excluded) ∧
    (∀ m : String, pyStartsWith m "llmfoundry" = false →
      pyStartsWith m "composer" = false → pyStartsWith m "omegaconf" = false →
      classifyModule m = ImportKind.unrelated) := by
  refine ⟨?_, ?_, ?_, ?_⟩
  · intro m h
    rw [classifyModule, if_pos (specSegMatch_pyStartsWith h)]
  · intro m h
    have hc := specSegMatch_pyStartsWith h
    have hllm : pyStartsWith m "llmfoundry" = false :=
      pyStartsWith_head_ne m "composer" "llmfoundry" 'c' 'l' _ _
        data_composer data_llmfoundry (by decide) hc
    rw [classifyModule, if_neg (by simp [hllm]), if_pos (by simp [hc])]
  · intro m h
    have hc := specSegMatch_pyStartsWith h
    have hllm : pyStartsWith m "llmfoundry" = false :=
      pyStartsWith_head_ne m "omegaconf" "llmfoundry" 'o' 'l' _ _
        data_omegaconf data_llmfoundry (by decide) hc
    rw [classifyModule, if_neg (by simp [hllm]), if_pos (by simp [hc])]
  · intro m h1 h2 h3
    rw [classifyModule, if_neg (by simp [h1]), if_neg (by simp [h2, h3])]

/-- C5, witness: the amended theorem applied to segment-matching and
unrelated module names. -/
theorem c5_prefix_classification_witness :
    classifyModule "composer.utils" = ImportKind.excluded ∧
    classifyModule "llmfoundry.models" = ImportKind.internal ∧
    classifyModule "omegaconf.dictconfig" = ImportKind.excluded ∧
    classifyModule "torch.nn" = ImportKind.unrelated :=
  ⟨c5_prefix_classification.2.1 "composer.utils" (by decide),
   c5_prefix_classification.1 "llmfoundry.models" (by decide),
   c5_prefix_classification.2.2.1 "omegaconf.dictconfig" (by decide),
   c5_prefix_classification.2.2.2 "torch.nn" (by decide) (by decide)
     (by decide)⟩

/-- C6: the claim says imports matching no prefix — including
from-imports with no absolute module name, such as `from . import x` —
pass through unchanged and never fail.  The code instead calls
`node.module.startswith` on `module = None` and raises
`AttributeError`, so `process_file` fails on such a file even though
the statement matches none of the rewrite or removal conditions. -/
theorem c6_none_module_attribute_error :
    processModule (fun s => s) ⟨[Stmt.importFrom 1 none ["x"]]⟩ =
      Except.error "AttributeError: NoneType object has no attribute startswith" ∧
    isInternalImport (Stmt.importFrom 1 none ["x"]) = false ∧
    isExcludedImport (Stmt.importFrom 1 none ["x"]) = false ∧
    shouldRemove (Stmt.importFrom 1 none ["x"]) = false :=
  ⟨rfl, rfl, rfl, rfl⟩

/-- C7, counterexample: deletion is not restricted to whole top-level
statements — a matched excluded import nested inside a function body is
excised as well (`ast.walk` collects nested matches and
`DeleteSpecificNodes` recurses), so a nested statement is not
preserved. -/
theorem c7_counterexample :
    processModule (fun s => s)
      ⟨[Stmt.funcDef "f" [Stmt.importFrom 0 (some "composer.utils") ["y"]]]⟩ =
      Except.ok (⟨[Stmt.funcDef "f" []]⟩, []) ∧
    Stmt.importFrom 0 (some "composer.utils") ["y"] ∉
      ([Stmt.funcDef "f" [Stmt.importFrom 0 (some "composer.utils") ["y"]]] :
        List Stmt) ∧
    Stmt.importFrom 0 (some "composer.utils") ["y"] ∈
      walkStmts [Stmt.funcDef "f" [Stmt.importFrom 0 (some "composer.utils") ["y"]]] ∧
    Stmt.importFrom 0 (some "composer.utils") ["y"] ∉
      walkStmts [Stmt.funcDef "f" []] := by
  refine ⟨rfl, by decide, by decide, by decide⟩

/-- C7, amended: the transformation is the recursive filter
`pruneStmts` after the import rewrite — matched nodes are excised at
every nesting level, unmatched siblings keep their relative order; when
no removal match occurs anywhere the tree is only rewritten, and when
additionally no internal import occurs the file is a no-op with no
dependencies. -/
theorem c7_prune_shape (resolve : String → String) (m out : PyModule)
    (ds : List String) (h : processModule resolve m = .ok (out, ds)) :
    out.body = pruneStmts (rewriteStmts m.body) ∧
    ((∀ x ∈ walkStmts m.body, shouldRemove x = false) →
      out.body = rewriteStmts m.body) ∧
    ((∀ x ∈ walkStmts m.body, shouldRemove x = false) →
      (∀ x ∈ walkStmts m.body, isInternalImport x = false) →
      out = m ∧ ds = []) := by
  obtain ⟨hbody, hds, -⟩ := processModule_ok resolve m out ds h
  have hnoop : (∀ x ∈ walkStmts m.body, shouldRemove x = false) →
      out.body = rewriteStmts m.body := by
    intro hno
    rw [hbody]
    refine prune_noop_aux (stmtsSize (rewriteStmts m.body)) _ le_rfl ?_
    rintro x ⟨t, ht, hocc⟩
    rw [rewriteStmts_eq_map] at ht
    rcases List.mem_map.mp ht with ⟨t₀, ht₀, rfl⟩
    rcases occ_rewrite x _ hocc _ rfl with ⟨y, hy, rfl⟩
    rw [shouldRemove_rewriteStmt]
    exact hno y ((walkStmts_mem _ _).mpr ⟨t₀, ht₀, hy⟩)
  refine ⟨hbody, hnoop, ?_⟩
  intro hno hnoimp
  have h1 : out.body = rewriteStmts m.body := hnoop hno
  have h2 : rewriteStmts m.body = m.body := by
    refine rewrite_noop_aux (stmtsSize m.body) _ le_rfl ?_
    rintro x ⟨t, ht, hocc⟩
    exact hnoimp x ((walkStmts_mem _ _).mpr ⟨t, ht, hocc⟩)
  constructor
  · cases out with
    | mk ob =>
      cases m with
      | mk mb =>
        simp only at h1 h2
        exact congrArg PyModule.mk (h1.trans h2)
  · rw [hds]
    exact collectDeps_nil resolve m.body hnoimp

/-- C7, witness: the amended theorem at a module with one top-level
match, one nested-body statement and one plain statement. -/
theorem c7_prune_shape_witness :
    pruneStmts (rewriteStmts [Stmt.importFrom 0 (some "composer.utils") ["gf"],
      Stmt.funcDef "f" [Stmt.exprStmt "y = 2"], Stmt.exprStmt "x = 1"]) =
      [Stmt.funcDef "f" [Stmt.exprStmt "y = 2"], Stmt.exprStmt "x = 1"] :=
  ((c7_prune_shape (fun s => s)
    ⟨[Stmt.importFrom 0 (some "composer.utils") ["gf"],
      Stmt.funcDef "f" [Stmt.exprStmt "y = 2"], Stmt.exprStmt "x = 1"]⟩
    ⟨[Stmt.funcDef "f" [Stmt.exprStmt "y = 2"], Stmt.exprStmt "x = 1"]⟩
    [] rfl).1).symm

/-- C8, counterexample: the round-trip fails on a reachable tree — a
function whose whole body is one excluded import re-parses before the
transformation but its emitted text after the transformation is a
header with an empty block, which `parse` rejects. -/
theorem c8_counterexample :
    reparses (unparseModule ⟨[Stmt.funcDef "f"
      [Stmt.importFrom 0 (some "composer.utils") ["y"]]]⟩) = true ∧
    processModule (fun s => s)
      ⟨[Stmt.funcDef "f" [Stmt.importFrom 0 (some "composer.utils") ["y"]]]⟩ =
      Except.ok (⟨[Stmt.funcDef "f" []]⟩, []) ∧
    unparseModule ⟨[Stmt.funcDef "f" []]⟩ = "def f():" ∧
    reparses "def f():" = false :=
  ⟨by decide, rfl, rfl, by decide⟩

/-- C8, amended: when every removal match sits at module top level, the
transformed tree of a printable input with nonempty compound bodies
(true of any tree parsed from source text) unparses to text that
re-parses. -/
theorem c8_roundtrip (resolve : String → String) (m out : PyModule)
    (ds : List String) (h : processModule resolve m = .ok (out, ds))
    (hclean : ∀ t ∈ m.body, ∀ x ∈ walkStmts (childrenOf t),
      shouldRemove x = false)
    (htext : ∀ x ∈ walkStmts m.body, stmtTextOk x = true)
    (hneb : ∀ x ∈ walkStmts m.body, compoundNonempty x = true) :
    reparses (unparseModule out) = true := by
  refine reparses_unparseModule out ?_
  refine processed_occ_ok h ?_ ?_ ?_
  · intro t ht w hw x hx
    exact hclean t ht x ((walkStmts_mem _ _).mpr ⟨w, hw, hx⟩)
  · rintro x ⟨t, ht, hocc⟩
    exact htext x ((walkStmts_mem _ _).mpr ⟨t, ht, hocc⟩)
  · rintro x ⟨t, ht, hocc⟩
    exact hneb x ((walkStmts_mem _ _).mpr ⟨t, ht, hocc⟩)

/-- C8, witness: the amended theorem at the spec's concrete scenario —
an internal import (rewritten), an excluded import, a `Composer` class
and an `__all__` assignment (all removed at top level), a function and
a plain statement (kept). -/
theorem c8_roundtrip_witness :
    reparses (unparseModule ⟨[Stmt.importFrom 0 (some ".layers") ["Block"],
      Stmt.funcDef "f" [Stmt.exprStmt "y = 2"], Stmt.exprStmt "x = 1"]⟩) =
      true :=
  c8_roundtrip (fun s => s)
    ⟨[Stmt.importFrom 0 (some "llmfoundry.models.layers") ["Block"],
      Stmt.importFrom 0 (some "composer.utils") ["gf"],
      Stmt.classDef "ComposerMPT" [Stmt.exprStmt "pass"],
      Stmt.assign [.name "__all__"] "[1]",
      Stmt.funcDef "f" [Stmt.exprStmt "y = 2"],
      Stmt.exprStmt "x = 1"]⟩
    ⟨[Stmt.importFrom 0 (some ".layers") ["Block"],
      Stmt.funcDef "f" [Stmt.exprStmt "y = 2"], Stmt.exprStmt "x = 1"]⟩
    ["llmfoundry.models.layers"] rfl (by decide) (by decide) (by decide)

/-- C9, counterexample: two runs over the same seed set that pop in
different orders leave different contents under the same output name —
two distinct source paths (`p/x.py`, `q/x.py`) flatten to the one name
`x.py`, and last-write-wins makes the drain order observable. -/
theorem c9_counterexample :
    (runLoop (fun _ => true)
        (fun p => if p == "out/a.py" then ["p/x.py"]
          else if p == "out/b.py" then ["q/x.py"] else []) 6
        (initState ["out/a.py", "out/b.py"])).map
      (fun st => finalFS outName (fun p => p) st.emitted "x.py") =
      some (some "p/x.py") ∧
    (runLoop (fun _ => true)
        (fun p => if p == "out/a.py" then ["p/x.py"]
          else if p == "out/b.py" then ["q/x.py"] else []) 6
        (initState ["out/b.py", "out/a.py"])).map
      (fun st => finalFS outName (fun p => p) st.emitted "x.py") =
      some (some "q/x.py") ∧
    (["out/a.py", "out/b.py"] : List String).toFinset =
      (["out/b.py", "out/a.py"] : List String).toFinset := by
  refine ⟨rfl, rfl, by decide⟩

/-- C9, amended: when the flattened output names of the valid reachable
paths do not collide, the final folder contents are the same for any
two drained runs over the same seed set, whatever their pop order. -/
theorem c9_order_independent (valid : String → Bool)
    (deps : String → List String) (seeds₁ seeds₂ : List String)
    (content : String → String) (st₁ st₂ : WLState)
    (h₁ : seeds₁.Nodup) (h₂ : seeds₂.Nodup)
    (hset : ∀ p, p ∈ seeds₁ ↔ p ∈ seeds₂)
    (hr₁ : WRun valid deps (initState seeds₁) st₁) (hd₁ : st₁.pending = [])
    (hr₂ : WRun valid deps (initState seeds₂) st₂) (hd₂ : st₂.pending = [])
    (hinj : ∀ p q, Reach valid deps seeds₁ p → Reach valid deps seeds₁ q →
      valid p = true → valid q = true → outName p = outName q → p = q) :
    ∀ n, finalFS outName content st₁.emitted n =
      finalFS outName content st₂.emitted n := by
  have hinv₁ := wrun_inv hr₁ (winv_init seeds₁ h₁)
  have hinv₂ := wrun_inv hr₂ (winv_init seeds₂ h₂)
  have hem₁ := winv_complete_emitted hinv₁ hd₁
  have hem₂ := winv_complete_emitted hinv₂ hd₂
  have hnd₁ : st₁.emitted.Nodup := by
    rw [hinv₁.emitted_eq]
    exact hinv₁.popped_nd.filter _
  have hnd₂ : st₂.emitted.Nodup := by
    rw [hinv₂.emitted_eq]
    exact hinv₂.popped_nd.filter _
  have hmem : ∀ p, p ∈ st₁.emitted ↔ p ∈ st₂.emitted := by
    intro p
    rw [hem₁ p, hem₂ p]
    constructor
    · rintro ⟨hr, hv⟩
      exact ⟨reach_congr hset hr, hv⟩
    · rintro ⟨hr, hv⟩
      exact ⟨reach_congr (fun q => (hset q).symm) hr, hv⟩
  have hinj2 : ∀ p ∈ st₁.emitted, ∀ q ∈ st₁.emitted,
      outName p = outName q → p = q := by
    intro p hp q hq hpq
    have hp2 := (hem₁ p).mp hp
    have hq2 := (hem₁ q).mp hq
    exact hinj p q hp2.1 hq2.1 hp2.2 hq2.2 hpq
  intro n
  exact finalFS_congr outName content st₁.emitted st₂.emitted hnd₁ hnd₂
    hmem hinj2 n

/-- C9, witness: two collision-free runs over swapped seed lists emit
in different orders but agree on the final contents. -/
theorem c9_order_independent_witness :
    finalFS outName (fun p => p) ["b.py", "a.py"] "a.py" =
      finalFS outName (fun p => p) ["a.py", "b.py"] "a.py" := by
  have hreach : ∀ r, Reach (fun _ => true) (fun _ => ([] : List String))
      ["a.py", "b.py"] r → r = "a.py" ∨ r = "b.py" := by
    intro r hr
    induction hr with
    | seed h => simpa using h
    | dep _ _ hq _ => simp at hq
  have h := c9_order_independent (fun _ => true) (fun _ => [])
    ["a.py", "b.py"] ["b.py", "a.py"] (fun p => p)
    (WLState.mk [] ["a.py", "b.py"] ["b.py", "a.py"] ["b.py", "a.py"]
      ["a.py", "b.py"])
    (WLState.mk [] ["b.py", "a.py"] ["a.py", "b.py"] ["a.py", "b.py"]
      ["b.py", "a.py"])
    (by decide) (by decide) (by intro p; constructor <;> intro h <;>
      simpa [or_comm] using h)
    (runLoop_wrun 2 (initState ["a.py", "b.py"]) _ rfl) rfl
    (runLoop_wrun 2 (initState ["b.py", "a.py"]) _ rfl) rfl
    (by
      intro p q hp hq hv1 hv2 hout
      rcases hreach p hp with rfl | rfl <;> rcases hreach q hq with rfl | rfl <;>
        first
          | rfl
          | exact absurd hout (by decide))
  exact h "a.py"

/-- C10: an invalid popped path (missing file or not `.py`) is skipped
silently: it is never emitted, yet it stays in `seen`, was popped
exactly once, and is no longer pending (never retried). -/
theorem c10_invalid_skipped (valid : String → Bool)
    (deps : String → List String) (seeds : List String) (st : WLState)
    (hnd : seeds.Nodup) (hrun : WRun valid deps (initState seeds) st)
    (p : String) (hp : p ∈ st.popped) (hv : valid p = false) :
    p ∉ st.emitted ∧ p ∈ st.seen ∧ st.popped.count p = 1 ∧
      p ∉ st.pending := by
  have hinv := wrun_inv hrun (winv_init seeds hnd)
  refine ⟨?_, hinv.popped_seen p hp,
    List.count_eq_one_of_mem hinv.popped_nd hp, hinv.popped_pend p hp⟩
  rw [hinv.emitted_eq, List.mem_filter]
  rintro ⟨-, hcontra⟩
  rw [hv] at hcontra
  cases hcontra

/-- C10, witness: a run whose only dependency path is invalid. -/
theorem c10_invalid_skipped_witness :
    "missing" ∉ (WLState.mk [] ["missing", "out/a.py"] ["out/a.py"]
      ["out/a.py", "missing"] ["out/a.py", "missing"]).emitted ∧
    "missing" ∈ (WLState.mk [] ["missing", "out/a.py"] ["out/a.py"]
      ["out/a.py", "missing"] ["out/a.py", "missing"]).seen ∧
    (WLState.mk [] ["missing", "out/a.py"] ["out/a.py"]
      ["out/a.py", "missing"] ["out/a.py", "missing"]).popped.count
      "missing" = 1 ∧
    "missing" ∉ (WLState.mk [] ["missing", "out/a.py"] ["out/a.py"]
      ["out/a.py", "missing"] ["out/a.py", "missing"]).pending :=
  c10_invalid_skipped (fun p => p == "out/a.py")
    (fun p => if p == "out/a.py" then ["missing"] else []) ["out/a.py"]
    (WLState.mk [] ["missing", "out/a.py"] ["out/a.py"]
      ["out/a.py", "missing"] ["out/a.py", "missing"])
    (by decide)
    (runLoop_wrun 2 (initState ["out/a.py"]) _ rfl)
    "missing" (by decide) rfl

end ConvertHF
